import Mathlib

/-!
Verification development for the RAG data-ingestion pipeline.

Shallow embedding of:
  * `src/data_ingestion/github_client.py`  (GitHubAPIClient)
  * `src/data_ingestion/fetchers/projects_fetcher.py`
  * `src/data_ingestion/fetchers/commits_fetcher.py`
  * `src/data_processing/normalizer.py`
  * `src/main.py` (run_pipeline / main)

Python JSON values are modelled by `JV`; Python dicts by association
lists preserving insertion order; the filesystem by explicit structures;
`requests` responses by `AttemptOutcome`.  Floats used for backoff are
modelled by `ℚ` (all backoff arithmetic in the source is exact on the
dyadic values involved).
-/

namespace RAG

/-- A Python/JSON value.  Objects are association lists in insertion
order (Python dicts preserve insertion order). -/
inductive JV where
  | null
  | bool (b : Bool)
  | str (s : String)
  | num (n : Int)
  | list (xs : List JV)
  | obj (kvs : List (String × JV))

/-- Python truthiness of a JSON value (`if not x`). -/
def truthy : JV → Bool
  | .null => false
  | .bool b => b
  | .str s => !s.isEmpty
  | .num n => n != 0
  | .list xs => !xs.isEmpty
  | .obj kvs => !kvs.isEmpty

/-- `d.get(k)` on a Python dict: `some v` when the key is present,
`none` when absent.  Only meaningful on `.obj`; callers model the
`AttributeError` of `.get` on a non-dict separately. -/
def JV.get? : JV → String → Option JV
  | .obj kvs, k => (kvs.find? (fun p => p.1 == k)).map (fun p => p.2)
  | _, _ => none

/-- `d[k] = v` on a Python dict: replace the value in place when the key
exists, append otherwise (Python dicts keep the original key position on
re-assignment). -/
def JV.set : JV → String → JV → JV
  | .obj kvs, k, v =>
      if kvs.any (fun p => p.1 == k) then
        .obj (kvs.map (fun p => if p.1 == k then (p.1, v) else p))
      else
        .obj (kvs ++ [(k, v)])
  | j, _, _ => j

def JV.isObj : JV → Bool
  | .obj _ => true
  | _ => false

def JV.isList : JV → Bool
  | .list _ => true
  | _ => false

/-- Structural equality on JSON values (Python `==` on parsed JSON).
Used only where the source compares values (set membership); theorems
about it are stated on string-valued fields, where it reduces to string
equality. -/
def JV.beq : JV → JV → Bool
  | .null, .null => true
  | .bool a, .bool b => a == b
  | .str a, .str b => a == b
  | .num a, .num b => a == b
  | .list xs, .list ys => beqList xs ys
  | .obj xs, .obj ys => beqFields xs ys
  | _, _ => false
where
  beqList : List JV → List JV → Bool
    | [], [] => true
    | x :: xs, y :: ys => JV.beq x y && beqList xs ys
    | _, _ => false
  beqFields : List (String × JV) → List (String × JV) → Bool
    | [], [] => true
    | (k, v) :: xs, (l, w) :: ys => k == l && JV.beq v w && beqFields xs ys
    | _, _ => false

instance : BEq JV := ⟨JV.beq⟩

/-- Bounded-forall decidability over `JV` lists (not found automatically
in the presence of the `BEq JV` instance). -/
instance (q : JV → Prop) [inst : DecidablePred q] (l : List JV) : Decidable (∀ x ∈ l, q x) :=
  List.decidableBAll q l

/-! ## GitHubAPIClient (`src/data_ingestion/github_client.py`) -/

/-- The value of a response header, as the string it came in as:
`num q` stands for a string that Python `float()` parses to `q`,
`raw s` for a string `float()` rejects. -/
inductive HeaderVal where
  | num (q : ℚ)
  | raw (s : String)

/-- The two response headers the client reads. -/
structure Headers where
  retryAfter : Option HeaderVal := none
  rateLimitRemaining : Option String := none

/-- Client construction parameters (token, base URL and timeout do not
affect the retry protocol and are omitted). -/
structure ClientCfg where
  max_retries : Nat := 5
  initial_backoff : ℚ := 1
  max_backoff : ℚ := 60

/-- What one attempt of `self._session.get` produces: a response with a
status, headers and JSON body, or a raised `requests.RequestException`
(connection failure, timeout). -/
inductive AttemptOutcome where
  | resp (status : Nat) (headers : Headers) (body : JV)
  | exn (msg : String)

/-- Exceptions `get` can surface. -/
inductive PyExn where
  | httpError (status : Nat)
  | transportError (msg : String)
  | requestFailed
deriving DecidableEq

/-- Result of one call to `get`: the returned JSON or raised exception,
the number of HTTP attempts issued, and the sequence of `time.sleep`
durations in order. -/
structure GetResult where
  outcome : Except PyExn JV
  attempts : Nat
  sleeps : List ℚ

/-- `requests.Response.ok`: status strictly below 400. -/
def respOk (status : Nat) : Bool := status < 400

/-- `GitHubAPIClient._should_retry` on a response (the `error is None`
case): 429/500/502/503/504, or 403 with `X-RateLimit-Remaining: "0"`. -/
def should_retry_status (status : Nat) (h : Headers) : Bool :=
  (status == 429 || status == 500 || status == 502 || status == 503 || status == 504)
  || (status == 403 && h.rateLimitRemaining == some "0")

/-- `GitHubAPIClient._get_retry_after`: the header's string must be
truthy and parse as a float; otherwise `None`.  (`raw s` never parses;
an empty string is additionally falsy.) -/
def get_retry_after (h : Headers) : Option ℚ :=
  match h.retryAfter with
  | some (.num q) => some q
  | some (.raw _) => none
  | none => none

/-- Python `min` on two floats (modelled on `ℚ`). -/
def pymin (a b : ℚ) : ℚ := if a ≤ b then a else b

/-- Python `2**attempt` (an exact integer power, modelled on `ℚ`). -/
def pow2 : Nat → ℚ
  | 0 => 1
  | n + 1 => 2 * pow2 n

/-- `GitHubAPIClient._compute_backoff`. -/
def compute_backoff (cfg : ClientCfg) (attempt : Nat) (retry_after : Option ℚ) : ℚ :=
  match retry_after with
  | some ra => pymin ra cfg.max_backoff
  | none => pymin (cfg.initial_backoff * pow2 attempt) cfg.max_backoff

/-- `requests.Response.raise_for_status` raises exactly for
400 ≤ status < 600. -/
def raisesForStatus (status : Nat) : Bool := 400 ≤ status && status < 600

/-- The body of `GitHubAPIClient.get`'s `for attempt in range(max_retries + 1)`
loop, one constructor case per iteration, plus the post-loop exhaustion
code at fuel 0.  State carried: current `attempt` index, accumulated
sleep list, `last_response` (its status) and `last_error`.

Faithful control flow notes:
  * a non-2xx non-retryable response hits `response.raise_for_status()`
    inside the `try`; the raised `HTTPError` is a `requests.RequestException`
    and is caught by the `except` clause, where `_should_retry(None, e)`
    is true (error is not `None`), so the loop sleeps
    `_compute_backoff(attempt)` and retries unless `attempt >= max_retries`;
  * a retryable response sleeps `_compute_backoff(attempt, retry_after)`
    only when `attempt < max_retries`, then iterates;
  * after the loop, `last_response.raise_for_status()` fires when the
    last status is in [400, 600); otherwise `last_error` is re-raised
    when present; otherwise a generic `RequestException` is raised. -/
def getAux (cfg : ClientCfg) (transport : Nat → AttemptOutcome) :
    Nat → Nat → List ℚ → Option Nat → Option String → GetResult
  | 0, attempt, sleeps, lastResp, lastErr =>
    match lastResp with
    | some s =>
      if raisesForStatus s then ⟨.error (.httpError s), attempt, sleeps⟩
      else
        match lastErr with
        | some m => ⟨.error (.transportError m), attempt, sleeps⟩
        | none => ⟨.error .requestFailed, attempt, sleeps⟩
    | none =>
      match lastErr with
      | some m => ⟨.error (.transportError m), attempt, sleeps⟩
      | none => ⟨.error .requestFailed, attempt, sleeps⟩
  | fuel + 1, attempt, sleeps, lastResp, lastErr =>
    match transport attempt with
    | .resp status headers body =>
      if respOk status then
        ⟨.ok body, attempt + 1, sleeps⟩
      else if !should_retry_status status headers && raisesForStatus status then
        -- raise_for_status fires; the HTTPError is caught by the except
        -- clause, which retries with plain exponential backoff
        if cfg.max_retries ≤ attempt then ⟨.error (.httpError status), attempt + 1, sleeps⟩
        else
          getAux cfg transport fuel (attempt + 1)
            (sleeps ++ [compute_backoff cfg attempt none]) (some status) (some "HTTPError")
      else
        -- retryable status (or raise_for_status was a no-op):
        -- compute backoff, sleep only when attempts remain
        if attempt < cfg.max_retries then
          getAux cfg transport fuel (attempt + 1)
            (sleeps ++ [compute_backoff cfg attempt (get_retry_after headers)])
            (some status) lastErr
        else
          getAux cfg transport fuel (attempt + 1) sleeps (some status) lastErr
    | .exn m =>
      -- transport-level error: `_should_retry(None, e)` is true
      if cfg.max_retries ≤ attempt then ⟨.error (.transportError m), attempt + 1, sleeps⟩
      else
        getAux cfg transport fuel (attempt + 1)
          (sleeps ++ [compute_backoff cfg attempt none]) lastResp (some m)

/-- `GitHubAPIClient.get`, run against an abstract transport giving each
attempt's outcome. -/
def GitHubAPIClient.get (cfg : ClientCfg) (transport : Nat → AttemptOutcome) : GetResult :=
  getAux cfg transport (cfg.max_retries + 1) 0 [] none none

/-- A transport answering 503 on the first two attempts and 200 with
`payload` from the third on. -/
def transport503twice (payload : JV) : Nat → AttemptOutcome :=
  fun n => if n < 2 then .resp 503 {} .null else .resp 200 {} payload

/-! ## Filesystem model and fetchers
(`src/data_ingestion/fetchers/projects_fetcher.py`,
 `src/data_ingestion/fetchers/commits_fetcher.py`) -/

/-- A directory of JSON files: filename paired with its parsed content,
`none` standing for a file whose contents fail to parse as JSON. -/
structure FSDir where
  files : List (String × Option JV)

/-- A directory of per-repository subdirectories (the commits store). -/
structure FS where
  dirs : List (String × FSDir)

/-- Lexicographic code-point comparison of character lists (Python
string `<=`). -/
def charListLe : List Char → List Char → Bool
  | [], _ => true
  | _ :: _, [] => false
  | c :: cs, d :: ds =>
    if c.toNat < d.toNat then true
    else if d.toNat < c.toNat then false
    else charListLe cs ds

def fileNameLe (a b : String) : Bool := charListLe a.data b.data

/-- Insert into a filename-sorted list, keeping an earlier-in-input
element before later elements with an equal filename (stability of
Python `sorted`). -/
def insertFile (x : String × Option JV) : List (String × Option JV) → List (String × Option JV)
  | [] => [x]
  | y :: ys => if fileNameLe x.1 y.1 then x :: y :: ys else y :: insertFile x ys

/-- `sorted(directory.glob("*.json"))`: the files in lexicographic
filename order (a stable sort, as Python's). -/
def sortFiles : List (String × Option JV) → List (String × Option JV)
  | [] => []
  | x :: xs => insertFile x (sortFiles xs)

/-- `commit_folder.exists() and commit_folder.is_dir()`, plus access. -/
def FS.findDir (fs : FS) (d : String) : Option FSDir :=
  (fs.dirs.find? (fun p => p.1 == d)).map (fun p => p.2)

/-- `Path.mkdir(parents=True, exist_ok=True)`. -/
def FS.mkdirP (fs : FS) (d : String) : FS :=
  if fs.dirs.any (fun p => p.1 == d) then fs else ⟨fs.dirs ++ [(d, ⟨[]⟩)]⟩

/-- `open(path, "w")` + `json.dump`: overwrite the file when present,
create it otherwise. -/
def FSDir.writeFile (dir : FSDir) (fname : String) (content : JV) : FSDir :=
  if dir.files.any (fun p => p.1 == fname) then
    ⟨dir.files.map (fun p => if p.1 == fname then (p.1, some content) else p)⟩
  else ⟨dir.files ++ [(fname, some content)]⟩

/-- Write a file inside subdirectory `d` of the commits store. -/
def FS.writeFile (fs : FS) (d fname : String) (content : JV) : FS :=
  ⟨fs.dirs.map (fun p => if p.1 == d then (p.1, p.2.writeFile fname content) else p)⟩

/-- `f"page_/page/.json"` with the page number interpolated. -/
def pageFileName (n : Nat) : String := "page_" ++ toString n ++ ".json"

/-- Python `str()` of a JSON value as used in f-strings.  The claims
only exercise it on strings; containers are given placeholder renderings
and all theorems involving it restrict the interpolated fields to
`.str` values. -/
def pyStr : JV → String
  | .str s => s
  | .null => "None"
  | .bool true => "True"
  | .bool false => "False"
  | .num n => toString n
  | .list _ => "[python list]"
  | .obj _ => "[python dict]"

/-- `_safe_dir_name` of `commits_fetcher.py`:
`re.sub(r'[<>:"/\\|?*]', "_", f"..owner..__..repo..")`. -/
def specialChars : List Char := ['<', '>', ':', '"', '/', '\\', '|', '?', '*']

def safe_dir_name (owner repo : String) : String :=
  ((owner ++ "__" ++ repo).data.map (fun c => if specialChars.contains c then '_' else c)).asString

/-- `_load_projects_from_dir` of `commits_fetcher.py`: over the sorted
JSON files, a file that fails to parse is logged and the exception
re-raised (`.error`), a parsed non-list is logged and skipped, parsed
lists are concatenated. -/
def loadProjectsFiles : List (String × Option JV) → List JV → Except String (List JV)
  | [], acc => .ok acc
  | (fname, none) :: _, _ => .error fname
  | (_, some (.list xs)) :: rest, acc => loadProjectsFiles rest (acc ++ xs)
  | (_, some _) :: rest, acc => loadProjectsFiles rest acc

def load_projects_from_dir (d : FSDir) : Except String (List JV) :=
  loadProjectsFiles (sortFiles d.files) []

/-- Python `not x` applied to `d.get(k)` results (`None` is falsy). -/
def truthyOpt : Option JV → Bool
  | some v => truthy v
  | none => false

/-- `_extract_owner_repo` of `commits_fetcher.py`.  The `try` block
catches `TypeError`/`AttributeError`, so a non-dict record or non-dict
`owner` yields `None`. -/
def extract_owner_repo (project : JV) : Option (JV × JV) :=
  match project with
  | .obj _ =>
    let name := project.get? "name"
    let owner_obj := project.get? "owner"
    if !truthyOpt name || !truthyOpt owner_obj then none
    else
      match owner_obj with
      | some (.obj okvs) =>
        let login := (JV.obj okvs).get? "login"
        if !truthyOpt login then none
        else some (login.getD .null, name.getD .null)
      | _ => none
  | _ => none

/-- The dedup pass of `fetch_all_commits`: a `seen` set and a
`unique_repos` list in first-seen order. -/
def uniqueReposAux : List JV → List (JV × JV) → List (JV × JV) → List (JV × JV)
  | [], _, uniq => uniq
  | p :: ps, seen, uniq =>
    match extract_owner_repo p with
    | some k =>
      if seen.contains k then uniqueReposAux ps seen uniq
      else uniqueReposAux ps (k :: seen) (uniq ++ [k])
    | none => uniqueReposAux ps seen uniq

def uniqueRepos (projects : List JV) : List (JV × JV) :=
  uniqueReposAux projects [] []

/-- Observable side effects of commit collection, in program order. -/
inductive Ev where
  | mkdir (dir : String)
  | request (key : JV × JV) (page : Nat)
  | writePage (dir : String) (page : Nat) (content : List JV)

/-- The `while True` pagination loop of `fetch_all_projects`
(`projects_fetcher.py`), instrumented with the list of page writes and a
request counter; fuel bounds iterations (`none` = loop still running). -/
def fetch_all_projects_loop (endpoint : Nat → JV) (per_page : Nat) :
    Nat → Nat → List JV → FSDir → List (Nat × List JV) → Nat →
    Option (Except String (List JV × FSDir × List (Nat × List JV) × Nat))
  | 0, _, _, _, _, _ => none
  | fuel + 1, page, acc, out, writes, reqs =>
    match endpoint page with
    | .list projects =>
      if projects.isEmpty then some (.ok (acc, out, writes, reqs + 1))
      else
        let out := out.writeFile (pageFileName page) (.list projects)
        let writes := writes ++ [(page, projects)]
        let acc := acc ++ projects
        if projects.length < per_page then some (.ok (acc, out, writes, reqs + 1))
        else fetch_all_projects_loop endpoint per_page fuel (page + 1) acc out writes (reqs + 1)
    | _ => some (.error "Expected list")

def fetch_all_projects (endpoint : Nat → JV) (output_dir : FSDir) (per_page fuel : Nat) :
    Option (Except String (List JV × FSDir × List (Nat × List JV) × Nat)) :=
  fetch_all_projects_loop endpoint per_page fuel 1 [] output_dir [] 0

/-- The per-repository `while True` commit-pagination loop inside
`fetch_all_commits` (`commits_fetcher.py`): request the page, raise
`ValueError` on a non-list, stop on an empty page, otherwise persist the
page, accumulate, stop after a short page. -/
def fetchRepoPages (endpoint : JV × JV → Nat → JV) (key : JV × JV) (per_page : Nat)
    (dirName : String) :
    Nat → Nat → List JV → FS → List Ev →
    Option (Except String (List JV × FS × List Ev))
  | 0, _, _, _, _ => none
  | fuel + 1, page, acc, fs, evs =>
    let evs := evs ++ [.request key page]
    match endpoint key page with
    | .list commits =>
      if commits.isEmpty then some (.ok (acc, fs, evs))
      else
        let fs := fs.writeFile dirName (pageFileName page) (.list commits)
        let evs := evs ++ [.writePage dirName page commits]
        let acc := acc ++ commits
        if commits.length < per_page then some (.ok (acc, fs, evs))
        else fetchRepoPages endpoint key per_page dirName fuel (page + 1) acc fs evs
    | _ => some (.error "Expected list")

/-- Python dict assignment `result[repo_key] = repo_commits`. -/
def dictSet (d : List (String × List JV)) (k : String) (v : List JV) :
    List (String × List JV) :=
  if d.any (fun p => p.1 == k) then d.map (fun p => if p.1 == k then (p.1, v) else p)
  else d ++ [(k, v)]

/-- The `for owner, repo in unique_repos` loop of `fetch_all_commits`:
per repository, create its directory, run the pagination loop, record
the result under `"owner/repo"`.  Any per-repository error aborts the
whole fetch (the `except` re-raises). -/
def fetchReposLoop (endpoint : JV × JV → Nat → JV) (per_page fuel : Nat) :
    List (JV × JV) → List (String × List JV) → FS → List Ev →
    Option (Except String (List (String × List JV) × FS × List Ev))
  | [], result, fs, evs => some (.ok (result, fs, evs))
  | key :: rest, result, fs, evs =>
    let dirName := safe_dir_name (pyStr key.1) (pyStr key.2)
    let fs := fs.mkdirP dirName
    let evs := evs ++ [.mkdir dirName]
    match fetchRepoPages endpoint key per_page dirName fuel 1 [] fs evs with
    | none => none
    | some (.error e) => some (.error e)
    | some (.ok (commits, fs, evs)) =>
      fetchReposLoop endpoint per_page fuel rest
        (dictSet result (pyStr key.1 ++ "/" ++ pyStr key.2) commits) fs evs

/-- `fetch_all_commits`: load the projects from disk (re-raising on a
corrupt file), deduplicate repository keys, then fetch each unique
repository. -/
def fetch_all_commits (endpoint : JV × JV → Nat → JV) (projects_dir : FSDir)
    (commits_fs : FS) (per_page fuel : Nat) :
    Option (Except String (List (String × List JV) × FS × List Ev)) :=
  match load_projects_from_dir projects_dir with
  | .error e => some (.error e)
  | .ok projects => fetchReposLoop endpoint per_page fuel (uniqueRepos projects) [] commits_fs []

/-! ## Normalizer (`src/data_processing/normalizer.py`) -/

/-- Shared body of `load_all_jsons_from_dir` / `load_all_jsons_from_folder`
after sorting: a file whose read/parse raises is printed and skipped, a
parsed list is concatenated, a parsed non-list is appended as a single
element. -/
def processJsonFiles : List (String × Option JV) → List JV
  | [] => []
  | (_, none) :: rest => processJsonFiles rest
  | (_, some (.list xs)) :: rest => xs ++ processJsonFiles rest
  | (_, some j) :: rest => j :: processJsonFiles rest

/-- `load_all_jsons_from_dir` of `normalizer.py`. -/
def load_all_jsons_from_dir (d : FSDir) : List JV :=
  processJsonFiles (sortFiles d.files)

/-- `load_all_jsons_from_folder` of `normalizer.py` (textually identical
to `load_all_jsons_from_dir` in the source). -/
def load_all_jsons_from_folder (d : FSDir) : List JV :=
  processJsonFiles (sortFiles d.files)

/-- One iteration of the `for project in projects_list` loop of
`normalize_projects_and_commits`.  `.error` models an uncaught
`AttributeError`: `project.get` on a non-dict record, or `.get("login")`
on a non-dict `owner` value (note the source reads `owner.get("login")`
before the malformed-record check). -/
def normalize_step (commits_fs : FS) (project : JV) : Except String JV :=
  match project with
  | .obj _ =>
    let name := project.get? "name"
    let owner := (project.get? "owner").getD (.obj [])
    match owner with
    | .obj okvs =>
      let login := (JV.obj okvs).get? "login"
      if !truthyOpt name || !truthyOpt login then .ok project
      else
        let folder_name := pyStr (login.getD .null) ++ "__" ++ pyStr (name.getD .null)
        match commits_fs.findDir folder_name with
        | some d => .ok (project.set "commits" (.list (load_all_jsons_from_folder d)))
        | none => .ok (project.set "commits" (.list []))
    | _ => .error "AttributeError"
  | _ => .error "AttributeError"

/-- The `for project in projects_list` loop: apply the step to each
record in order, propagating an uncaught exception. -/
def normalizeList (commits_fs : FS) : List JV → Except String (List JV)
  | [] => .ok []
  | p :: rest =>
    match normalize_step commits_fs p with
    | .error e => .error e
    | .ok q =>
      match normalizeList commits_fs rest with
      | .error e => .error e
      | .ok qs => .ok (q :: qs)

/-- `normalize_projects_and_commits`, over the contents of
`data/raw/projects` and `data/raw/commits`.  The source mutates and
returns `projects_list`; folding the per-record step over the loaded
list is the same function. -/
def normalize_projects_and_commits (projects_dir : FSDir) (commits_fs : FS) :
    Except String (List JV) :=
  normalizeList commits_fs (load_all_jsons_from_dir projects_dir)

/-! ## Orchestrator (`src/main.py`) -/

/-- Abstract outcomes of the pipeline's four stages plus the on-disk
preconditions `run_pipeline` checks when a stage is skipped. -/
structure PipelineEnv where
  projects_dir_exists : Bool
  normalized_file_exists : Bool
  step_projects : Except String (List JV)
  step_commits : Except String (List (String × List JV))
  step_normalize : Except String (List JV)
  step_indexing : Except String (Nat × Nat)

structure PipelineFlags where
  skip_projects : Bool := false
  skip_commits : Bool := false
  skip_normalization : Bool := false
  skip_indexing : Bool := false

structure PipelineResult where
  projects_count : Nat
  total_commits : Nat
  normalized_count : Nat
  es_indexed : Nat
  es_errors : Nat

/-- `run_pipeline` of `main.py`.  Steps 1-3 propagate their exceptions
(including the `FileNotFoundError` raised when a skipped stage's
prerequisite is missing); step 4 wraps `index_normalized_projects` in
`try/except Exception`, logging and continuing on any indexing failure. -/
def run_pipeline (env : PipelineEnv) (f : PipelineFlags) : Except String PipelineResult :=
  let s1 : Except String Nat :=
    if !f.skip_projects then
      match env.step_projects with
      | .ok ps => .ok ps.length
      | .error e => .error e
    else if !env.projects_dir_exists then .error "Cannot skip projects"
    else .ok 0
  match s1 with
  | .error e => .error e
  | .ok projects_count =>
    let s2 : Except String Nat :=
      if !f.skip_commits then
        match env.step_commits with
        | .ok cs => .ok (cs.foldl (fun n p => n + p.2.length) 0)
        | .error e => .error e
      else .ok 0
    match s2 with
    | .error e => .error e
    | .ok total_commits =>
      let s3 : Except String Nat :=
        if !f.skip_normalization then
          match env.step_normalize with
          | .ok ns => .ok ns.length
          | .error e => .error e
        else if !env.normalized_file_exists then .error "Cannot skip normalization"
        else .ok 0
      match s3 with
      | .error e => .error e
      | .ok normalized_count =>
        let es : Nat × Nat :=
          if !f.skip_indexing then
            match env.step_indexing with
            | .ok ie => ie
            | .error _ => (0, 0)
          else (0, 0)
        .ok ⟨projects_count, total_commits, normalized_count, es.1, es.2⟩

/-- `main` of `main.py`: exit code 0 when `run_pipeline` returns, 1 when
it raises. -/
def main_exit (env : PipelineEnv) (f : PipelineFlags) : Nat :=
  match run_pipeline env f with
  | .ok _ => 0
  | .error _ => 1

def exceptOk {α : Type} (e : Except String α) : Bool :=
  match e with
  | .ok _ => true
  | .error _ => false

/-- A run whose stages all succeed except Elasticsearch indexing, which
raises a connection error. -/
def envIdxFail : PipelineEnv :=
  { projects_dir_exists := true, normalized_file_exists := true,
    step_projects := .ok [], step_commits := .ok [], step_normalize := .ok [],
    step_indexing := .error "ConnectionError" }


/-- Concatenation of pages `start, start+1, ..., start+n-1` in fetch
order (reference description for the pagination theorems). -/
def concatPages (items : Nat → List JV) (start : Nat) : Nat → List JV
  | 0 => []
  | n + 1 => items start ++ concatPages items (start + 1) n

/-- The page-file writes performed for pages `start .. start+n-1`. -/
def pageWrites (items : Nat → List JV) (start : Nat) : Nat → List (Nat × List JV)
  | 0 => []
  | n + 1 => (start, items start) :: pageWrites items (start + 1) n

/-- The request/persist event trace of the commit-pagination loop over
pages `start .. start+n-1`. -/
def repoPageEvs (key : JV × JV) (dirName : String) (items : Nat → List JV) (start : Nat) :
    Nat → List Ev
  | 0 => []
  | n + 1 =>
    .request key start :: .writePage dirName start (items start) ::
      repoPageEvs key dirName items (start + 1) n

/-- First-seen deduplication with an explicit seen set (reference
description of the dedup pass, for the C9 statement). -/
def dedupFS (seen : List (JV × JV)) : List (JV × JV) → List (JV × JV)
  | [] => []
  | k :: ks => if seen.contains k then dedupFS seen ks else k :: dedupFS (k :: seen) ks

/-- A repository key whose components are strings (always the case for
well-typed GitHub records; Python would reject unhashable keys). -/
def isStrKey : JV × JV → Bool
  | (.str _, .str _) => true
  | _ => false

/-- Every key extractable from the record is a string pair. -/
def keyTyped (p : JV) : Bool :=
  match extract_owner_repo p with
  | some k => isStrKey k
  | none => true

/-- Number of page-1 commit requests for `k` in an event trace (the
"commit fetching initiated for k" count). -/
def countReq1 (k : JV × JV) : List Ev → Nat
  | [] => 0
  | e :: rest =>
    (match e with
     | .request k2 page => if k2 == k && page == 1 then 1 else 0
     | _ => 0) + countReq1 k rest

/-- Number of commit requests (any page) for `k` in an event trace. -/
def countReqAll (k : JV × JV) : List Ev → Nat
  | [] => 0
  | e :: rest =>
    (match e with
     | .request k2 _ => if k2 == k then 1 else 0
     | _ => 0) + countReqAll k rest

/-! ## Concrete fixtures used by counterexamples and witnesses -/

def itemsW : Nat → List JV := fun p => if p = 1 then [.num 1, .num 2] else [.num 3]
def keyW : JV × JV := (.str "u", .str "r")
def emptyEndpoint1 : Nat → JV := fun _ => .list []
def endpointW : JV × JV → Nat → JV := fun _ p => .list (itemsW p)
def emptyEndpointC : JV × JV → Nat → JV := fun _ _ => .list []


def recGood : JV := .obj [("x", .num 1)]
def dirCorrupt : FSDir := ⟨[("page_1.json", none), ("page_2.json", some (.list [recGood]))]⟩
def recNoName : JV := .obj [("owner", .obj [("login", .str "u")])]
def dirC3 : FSDir := ⟨[("page_1.json", some (.list [recNoName]))]⟩

def recC4 : JV := .obj [("name", .str "a?b"), ("owner", .obj [("login", .str "u")])]
def fsC4 : FS := ⟨[("u__a_b", ⟨[("page_1.json", some (.list [.obj [("sha", .str "a")]]))]⟩)]⟩
def dirC4 : FSDir := ⟨[("page_1.json", some (.list [recC4]))]⟩
def recW : JV := .obj [("name", .str "r1"), ("owner", .obj [("login", .str "u")])]
def fsW : FS := ⟨[("u__r1", ⟨[("page_1.json", some (.list [.obj [("sha", .str "a")]]))]⟩)]⟩

def recScanOk (p : JV) : Bool :=
  p.isObj && ((p.get? "owner").getD (.obj [])).isObj

def hasIdentity (p : JV) : Bool :=
  truthyOpt (p.get? "name") && truthyOpt (((p.get? "owner").getD (.obj [])).get? "login")


def cfg404 : ClientCfg := { max_retries := 2, initial_backoff := 1, max_backoff := 60 }

def transport404 : Nat → AttemptOutcome := fun _ => .resp 404 {} .null

def cfgDefault : ClientCfg := {}

def cfg1 : ClientCfg := { max_retries := 1, initial_backoff := 1, max_backoff := 60 }

def transportRA5 : Nat → AttemptOutcome :=
  fun _ => .resp 503 { retryAfter := some (.num 5) } .null

def projectsDup : List JV := [recW, recW, recNoName]
def endpointEmptyW : JV × JV → Nat → JV := fun _ _ => .list []
def keyW2 : JV × JV := (.str "u", .str "r1")
def outW : List (String × List JV) × FS × List Ev :=
  ([("u/r1", [])], ⟨[("u__r1", ⟨[]⟩)]⟩, [.mkdir "u__r1", .request keyW2 1])

theorem pymin_eq_min (a b : ℚ) : pymin a b = min a b := by
  simp [pymin, min_def]

theorem pow2_eq (n : Nat) : pow2 n = 2 ^ n := by
  induction n with
  | zero => simp [pow2]
  | succ k ih => rw [pow2, ih, pow_succ]; ring

/-- The sleep list accumulated by the retry loop only ever grows: the
incoming accumulator is a prefix of the final sleep list. -/
theorem getAux_sleeps_extend (cfg : ClientCfg) (t : Nat → AttemptOutcome) :
    ∀ fuel attempt sleeps lr le,
      ∃ rest, (getAux cfg t fuel attempt sleeps lr le).sleeps = sleeps ++ rest := by
  intro fuel
  induction fuel with
  | zero =>
    intro attempt sleeps lr le
    refine ⟨[], ?_⟩
    cases lr with
    | none => cases le <;> simp [getAux]
    | some s =>
      by_cases hs : raisesForStatus s = true <;> cases le <;> simp [getAux, hs]
  | succ k ih =>
    intro attempt sleeps lr le
    cases ht : t attempt with
    | resp status headers body =>
      by_cases hok : respOk status = true
      · exact ⟨[], by simp [getAux, ht, hok]⟩
      · by_cases hterm : (!should_retry_status status headers && raisesForStatus status) = true
        · by_cases hmr : cfg.max_retries ≤ attempt
          · exact ⟨[], by simp [getAux, ht, hok, hterm, hmr]⟩
          · obtain ⟨rest, hrest⟩ := ih (attempt + 1)
              (sleeps ++ [compute_backoff cfg attempt none]) (some status) (some "HTTPError")
            exact ⟨compute_backoff cfg attempt none :: rest,
              by simp [getAux, ht, hok, hterm, hmr, hrest]⟩
        · by_cases hlt : attempt < cfg.max_retries
          · obtain ⟨rest, hrest⟩ := ih (attempt + 1)
              (sleeps ++ [compute_backoff cfg attempt (get_retry_after headers)])
              (some status) le
            exact ⟨compute_backoff cfg attempt (get_retry_after headers) :: rest,
              by simp [getAux, ht, hok, hterm, hlt, hrest]⟩
          · obtain ⟨rest, hrest⟩ := ih (attempt + 1) sleeps (some status) le
            exact ⟨rest, by simp [getAux, ht, hok, hterm, hlt, hrest]⟩
    | exn m =>
      by_cases hmr : cfg.max_retries ≤ attempt
      · exact ⟨[], by simp [getAux, ht, hmr]⟩
      · obtain ⟨rest, hrest⟩ := ih (attempt + 1)
          (sleeps ++ [compute_backoff cfg attempt none]) lr (some m)
        exact ⟨compute_backoff cfg attempt none :: rest,
          by simp [getAux, ht, hmr, hrest]⟩

/-- One-step unfolding of the loop when the attempt yields a response. -/
theorem getAux_succ_resp (cfg : ClientCfg) (t : Nat → AttemptOutcome)
    (fuel attempt : Nat) (sleeps : List ℚ) (lr : Option Nat) (le : Option String)
    (status : Nat) (headers : Headers) (body : JV)
    (ht : t attempt = .resp status headers body) :
    getAux cfg t (fuel + 1) attempt sleeps lr le =
      if respOk status then ⟨.ok body, attempt + 1, sleeps⟩
      else if !should_retry_status status headers && raisesForStatus status then
        (if cfg.max_retries ≤ attempt then ⟨.error (.httpError status), attempt + 1, sleeps⟩
         else getAux cfg t fuel (attempt + 1)
            (sleeps ++ [compute_backoff cfg attempt none]) (some status) (some "HTTPError"))
      else
        (if attempt < cfg.max_retries then
          getAux cfg t fuel (attempt + 1)
            (sleeps ++ [compute_backoff cfg attempt (get_retry_after headers)]) (some status) le
         else getAux cfg t fuel (attempt + 1) sleeps (some status) le) := by
  conv_lhs => rw [getAux]
  rw [ht]

/-- One-step unfolding of the loop when the attempt raises a
transport-level error. -/
theorem getAux_succ_exn (cfg : ClientCfg) (t : Nat → AttemptOutcome)
    (fuel attempt : Nat) (sleeps : List ℚ) (lr : Option Nat) (le : Option String)
    (m : String) (ht : t attempt = .exn m) :
    getAux cfg t (fuel + 1) attempt sleeps lr le =
      if cfg.max_retries ≤ attempt then ⟨.error (.transportError m), attempt + 1, sleeps⟩
      else getAux cfg t fuel (attempt + 1)
        (sleeps ++ [compute_backoff cfg attempt none]) lr (some m) := by
  conv_lhs => rw [getAux]
  rw [ht]

/-- Against a transport that always answers 500, every run of the loop
ends in the post-loop `raise_for_status` of the last response, after one
attempt per unit of fuel. -/
theorem getAux_const500 (cfg : ClientCfg) (h5 : Headers) (body : JV) :
    ∀ fuel attempt sleeps lr le,
      (getAux cfg (fun _ => .resp 500 h5 body) (fuel + 1) attempt sleeps lr le).outcome
          = .error (.httpError 500) ∧
      (getAux cfg (fun _ => .resp 500 h5 body) (fuel + 1) attempt sleeps lr le).attempts
          = attempt + fuel + 1 := by
  intro fuel
  induction fuel with
  | zero =>
    intro attempt sleeps lr le
    by_cases hlt : attempt < cfg.max_retries <;>
      simp [getAux, respOk, should_retry_status, raisesForStatus, hlt]
  | succ k ih =>
    intro attempt sleeps lr le
    rw [getAux_succ_resp cfg _ (k + 1) attempt sleeps lr le 500 h5 body rfl]
    by_cases hlt : attempt < cfg.max_retries
    · have h1 := ih (attempt + 1)
        (sleeps ++ [compute_backoff cfg attempt (get_retry_after h5)]) (some 500) le
      simp only [respOk, should_retry_status, raisesForStatus]
      norm_num [hlt]
      exact ⟨h1.1, by rw [h1.2]; omega⟩
    · have h2 := ih (attempt + 1) sleeps (some 500) le
      simp only [respOk, should_retry_status, raisesForStatus]
      norm_num [hlt]
      exact ⟨h2.1, by rw [h2.2]; omega⟩

/-- Against a transport that always raises a transport-level error, the
loop retries until `attempt >= max_retries`, then re-raises. -/
theorem getAux_constExn (cfg : ClientCfg) (msg : String) :
    ∀ fuel attempt sleeps lr le, attempt + fuel = cfg.max_retries + 1 → 1 ≤ fuel →
      (getAux cfg (fun _ => .exn msg) fuel attempt sleeps lr le).outcome
          = .error (.transportError msg) ∧
      (getAux cfg (fun _ => .exn msg) fuel attempt sleeps lr le).attempts
          = cfg.max_retries + 1 := by
  intro fuel
  induction fuel with
  | zero => intro attempt sleeps lr le _ h1; omega
  | succ k ih =>
    intro attempt sleeps lr le hsum _
    by_cases hmr : cfg.max_retries ≤ attempt
    · have ha : attempt = cfg.max_retries := by omega
      simp [getAux, hmr, ha]
    · have hk : 1 ≤ k := by omega
      have := ih (attempt + 1) (sleeps ++ [compute_backoff cfg attempt none]) lr (some msg)
        (by omega) hk
      simp [getAux, hmr, this]


/-- C1 (code bug): the claim says a non-2xx status outside the retryable
set (429/500/502/503/504, 403 with rate-limit-remaining "0") makes `get`
raise immediately, with no further attempts and no backoff sleep.  The
code instead retries it: `response.raise_for_status()` sits inside the
`try`, its `HTTPError` is a `requests.RequestException` caught by the
`except` clause, and `_should_retry(None, e)` is true for any error.  At
the failing input (constant 404, max_retries = 2) the client performs 3
attempts and sleeps 1 s and 2 s before surfacing HTTPError(404). -/
theorem get_terminal_404_retried :
    (GitHubAPIClient.get cfg404 transport404).attempts = 3 ∧
    (GitHubAPIClient.get cfg404 transport404).sleeps = [1, 2] ∧
    (GitHubAPIClient.get cfg404 transport404).outcome = .error (.httpError 404) := by
  refine ⟨by decide, ?_, rfl⟩
  have h : (GitHubAPIClient.get cfg404 transport404).sleeps
      = [pymin ((1 : ℚ) * pow2 0) 60, pymin ((1 : ℚ) * pow2 1) 60] := rfl
  rw [h]; norm_num [pymin, pow2]

/-- C7 (confirmed): against a transport answering 500 on every attempt,
`get` raises after exactly `max_retries + 1` total attempts, surfacing
the last HTTP error; against a transport raising a transport-level error
on every attempt, it likewise raises that error after exactly
`max_retries + 1` attempts — never returning empty or default data. -/
theorem get_exhaustion (cfg : ClientCfg) (h5 : Headers) (body : JV) (msg : String) :
    ((GitHubAPIClient.get cfg (fun _ => .resp 500 h5 body)).attempts = cfg.max_retries + 1 ∧
     (GitHubAPIClient.get cfg (fun _ => .resp 500 h5 body)).outcome = .error (.httpError 500)) ∧
    ((GitHubAPIClient.get cfg (fun _ => .exn msg)).attempts = cfg.max_retries + 1 ∧
     (GitHubAPIClient.get cfg (fun _ => .exn msg)).outcome = .error (.transportError msg)) := by
  refine ⟨⟨?_, ?_⟩, ?_, ?_⟩
  · rw [GitHubAPIClient.get, (getAux_const500 cfg h5 body cfg.max_retries 0 [] none none).2]
    omega
  · rw [GitHubAPIClient.get, (getAux_const500 cfg h5 body cfg.max_retries 0 [] none none).1]
  · rw [GitHubAPIClient.get,
      (getAux_constExn cfg msg (cfg.max_retries + 1) 0 [] none none (by omega) (by omega)).2]
  · rw [GitHubAPIClient.get,
      (getAux_constExn cfg msg (cfg.max_retries + 1) 0 [] none none (by omega) (by omega)).1]

/-- C6 (confirmed): for a transport returning 503 on the first two
attempts and 200 on the third, `get` returns the 200 payload and sleeps
exactly twice, with values `min(initial_backoff * 1, max_backoff)` then
`min(initial_backoff * 2, max_backoff)`; and when a retryable response
carries a parseable numeric `Retry-After` header with value 5, the sleep
taken for it is exactly `min(5, max_backoff)`. -/
theorem get_backoff_sequence (cfg cfg2 : ClientCfg) (payload body : JV)
    (t : Nat → AttemptOutcome) (h : 2 ≤ cfg.max_retries) (h1 : 1 ≤ cfg2.max_retries)
    (ht : t 0 = .resp 503 { retryAfter := some (.num 5) } body) :
    ((GitHubAPIClient.get cfg (transport503twice payload)).outcome = .ok payload ∧
     (GitHubAPIClient.get cfg (transport503twice payload)).sleeps =
       [min (cfg.initial_backoff * 1) cfg.max_backoff,
        min (cfg.initial_backoff * 2) cfg.max_backoff]) ∧
    (GitHubAPIClient.get cfg2 t).sleeps.head? = some (min 5 cfg2.max_backoff) := by
  constructor
  · obtain ⟨k, hk⟩ : ∃ k, cfg.max_retries = k + 2 := ⟨cfg.max_retries - 2, by omega⟩
    rw [GitHubAPIClient.get, hk]
    rw [getAux_succ_resp cfg _ (k + 2) 0 [] none none 503 {} .null rfl]
    norm_num [respOk, should_retry_status, raisesForStatus]
    rw [if_pos (by omega : 0 < cfg.max_retries)]
    rw [getAux_succ_resp cfg _ (k + 1) 1 _ (some 503) none 503 {} .null rfl]
    norm_num [respOk, should_retry_status, raisesForStatus]
    rw [if_pos (by omega : 1 < cfg.max_retries)]
    rw [getAux_succ_resp cfg _ k 2 _ (some 503) none 200 {} payload rfl]
    norm_num [respOk]
    simp [compute_backoff, get_retry_after, pymin_eq_min, pow2]
  · obtain ⟨m, hm⟩ : ∃ m, cfg2.max_retries = m + 1 := ⟨cfg2.max_retries - 1, by omega⟩
    rw [GitHubAPIClient.get, hm]
    rw [getAux_succ_resp cfg2 t (m + 1) 0 [] none none 503
      { retryAfter := some (.num 5) } body ht]
    norm_num [respOk, should_retry_status, raisesForStatus]
    rw [if_pos (by omega : 0 < cfg2.max_retries)]
    obtain ⟨rest, hrest⟩ := getAux_sleeps_extend cfg2 t (m + 1) 1
      [compute_backoff cfg2 0 (get_retry_after { retryAfter := some (.num 5) })] (some 503) none
    rw [hrest]
    simp [compute_backoff, get_retry_after, pymin_eq_min]


/-- Witness for C6 -/
theorem get_backoff_sequence_witness :
    ((GitHubAPIClient.get cfgDefault (transport503twice .null)).outcome = .ok .null ∧
     (GitHubAPIClient.get cfgDefault (transport503twice .null)).sleeps =
       [min (cfgDefault.initial_backoff * 1) cfgDefault.max_backoff,
        min (cfgDefault.initial_backoff * 2) cfgDefault.max_backoff]) ∧
    (GitHubAPIClient.get cfg1 transportRA5).sleeps.head? = some (min 5 cfg1.max_backoff) :=
  get_backoff_sequence cfgDefault cfg1 .null .null transportRA5 (by decide) (by decide) rfl

theorem insertFile_perm (x : String × Option JV) :
    ∀ l : List (String × Option JV), (insertFile x l).Perm (x :: l) := by
  intro l
  induction l with
  | nil => rfl
  | cons y ys ih =>
    by_cases h : fileNameLe x.1 y.1 = true
    · simp [insertFile, h]
    · simpa [insertFile, h] using (List.Perm.cons y ih).trans (List.Perm.swap x y ys)

theorem sortFiles_perm (l : List (String × Option JV)) : (sortFiles l).Perm l := by
  induction l with
  | nil => rfl
  | cons x xs ih => exact (insertFile_perm x (sortFiles xs)).trans (.cons x ih)

theorem processJsonFiles_filter (l : List (String × Option JV)) :
    processJsonFiles l = processJsonFiles (l.filter (fun f => f.2.isSome)) := by
  induction l with
  | nil => rfl
  | cons hd tl ih =>
    obtain ⟨fname, content⟩ := hd
    cases content with
    | none => simpa [processJsonFiles] using ih
    | some j => cases j <;> simp [processJsonFiles, ih]

theorem loadProjectsFiles_ok_iff (l : List (String × Option JV)) (acc : List JV) :
    (∃ v, loadProjectsFiles l acc = .ok v) ↔ l.all (fun f => f.2.isSome) := by
  induction l generalizing acc with
  | nil => simp [loadProjectsFiles]
  | cons hd tl ih =>
    obtain ⟨fname, content⟩ := hd
    cases content with
    | none => simp [loadProjectsFiles]
    | some j => cases j <;> simp [loadProjectsFiles, ih]

/-- C2 counterexample: a directory whose first page file fails to parse
makes the commit collector's project load (`_load_projects_from_dir`)
raise, while the normalizer load skips the file — refuting the claim
that the load never raises because of one unparseable file. -/
theorem load_projects_corrupt_file_raises :
    load_projects_from_dir dirCorrupt = .error "page_1.json" ∧
    load_all_jsons_from_dir dirCorrupt = [recGood] := ⟨rfl, rfl⟩

/-- C2 (amended): during the normalizer's load-back, a page file that
fails to parse as JSON is skipped and the scan returns the remaining
files' records, never raising; the commit collector's project-directory
load instead succeeds exactly when every file in the directory parses,
re-raising the parse error otherwise. -/
theorem load_back_corrupt_file_handling (d : FSDir) :
    load_all_jsons_from_dir d
        = processJsonFiles ((sortFiles d.files).filter (fun f => f.2.isSome)) ∧
    ((∃ v, load_projects_from_dir d = .ok v) ↔ d.files.all (fun f => f.2.isSome)) := by
  refine ⟨processJsonFiles_filter _, ?_⟩
  rw [load_projects_from_dir, loadProjectsFiles_ok_iff]
  simp only [List.all_eq_true]
  exact ⟨fun h x hx => h x (((sortFiles_perm d.files).mem_iff).2 hx),
    fun h x hx => h x (((sortFiles_perm d.files).mem_iff).1 hx)⟩

theorem normalize_step_of_scanOk (fs : FS) (p : JV) (h : recScanOk p = true) :
    (hasIdentity p = false → normalize_step fs p = .ok p) ∧
    (hasIdentity p = true → ∃ cs, normalize_step fs p = .ok (p.set "commits" (.list cs))) := by
  rw [recScanOk, Bool.and_eq_true] at h
  obtain ⟨h1, h2⟩ := h
  cases p with
  | obj kvs =>
    cases howner : ((JV.obj kvs).get? "owner").getD (.obj []) with
    | obj okvs =>
      by_cases hn : truthyOpt ((JV.obj kvs).get? "name")
      · by_cases hl : truthyOpt ((JV.obj okvs).get? "login")
        · constructor
          · intro hid
            rw [hasIdentity, howner] at hid
            simp [hn, hl] at hid
          · intro _
            cases hfind : fs.findDir
                (pyStr ((((JV.obj okvs).get? "login")).getD .null) ++ "__"
                  ++ pyStr (((JV.obj kvs).get? "name").getD .null)) with
            | some dd =>
              exact ⟨load_all_jsons_from_folder dd, by
                simp [normalize_step, howner, hn, hl, hfind]⟩
            | none => exact ⟨[], by simp [normalize_step, howner, hn, hl, hfind]⟩
        · constructor
          · intro _
            simp [normalize_step, howner, hn, hl]
          · intro hid
            rw [hasIdentity, howner] at hid
            simp [hn, hl] at hid
      · constructor
        · intro _
          simp [normalize_step, howner, hn]
        · intro hid
          rw [hasIdentity] at hid
          simp [hn] at hid
    | null => simp [JV.isObj, howner] at h2
    | bool b => simp [JV.isObj, howner] at h2
    | str s => simp [JV.isObj, howner] at h2
    | num n => simp [JV.isObj, howner] at h2
    | list xs => simp [JV.isObj, howner] at h2
  | null => simp [JV.isObj] at h1
  | bool b => simp [JV.isObj] at h1
  | str s => simp [JV.isObj] at h1
  | num n => simp [JV.isObj] at h1
  | list xs => simp [JV.isObj] at h1

theorem mapM_normalize_step (fs : FS) (l : List JV) (hok : ∀ p ∈ l, recScanOk p = true) :
    ∃ out, normalizeList fs l = .ok out ∧ out.length = l.length ∧
      (∀ (i : Nat) (p : JV), l[i]? = some p →
        (hasIdentity p = false → out[i]? = some p) ∧
        (hasIdentity p = true → ∃ cs, out[i]? = some (p.set "commits" (.list cs)))) := by
  induction l with
  | nil => exact ⟨[], rfl, rfl, by simp⟩
  | cons q rest ih =>
    obtain ⟨out, hout, hlen, hidx⟩ := ih (fun p hp => hok p (List.mem_cons_of_mem q hp))
    have hq := normalize_step_of_scanOk fs q (hok q (List.mem_cons_self q rest))
    by_cases hid : hasIdentity q = true
    · obtain ⟨cs, hcs⟩ := hq.2 hid
      refine ⟨q.set "commits" (.list cs) :: out, ?_, by simp [hlen], ?_⟩
      · simp [normalizeList, hcs, hout]
      · intro i p hp
        cases i with
        | zero =>
          simp only [List.getElem?_cons_zero, Option.some.injEq] at hp
          subst hp
          exact ⟨fun hc => (by simp [hid] at hc), fun _ => ⟨cs, by simp⟩⟩
        | succ j =>
          simp only [List.getElem?_cons_succ] at hp ⊢
          exact hidx j p hp
    · rw [Bool.not_eq_true] at hid
      have hstep := hq.1 hid
      refine ⟨q :: out, ?_, by simp [hlen], ?_⟩
      · simp [normalizeList, hstep, hout]
      · intro i p hp
        cases i with
        | zero =>
          simp only [List.getElem?_cons_zero, Option.some.injEq] at hp
          subst hp
          exact ⟨fun _ => by simp, fun hc => (by simp [hid] at hc)⟩
        | succ j =>
          simp only [List.getElem?_cons_succ] at hp ⊢
          exact hidx j p hp

/-- C3 counterexample: a record with no `name` is returned unchanged by
`normalize_projects_and_commits` — it is not excluded from the output
and carries no `commits` attribute, refuting the claim as stated. -/
theorem normalize_keeps_malformed_record :
    normalize_projects_and_commits dirC3 ⟨[]⟩ = .ok [recNoName] ∧
    recNoName.get? "name" = none ∧ recNoName.get? "commits" = none :=
  ⟨rfl, rfl, rfl⟩

/-- C3 (amended): for inputs whose records are dicts with a dict (or
absent) `owner`, normalization never aborts, preserves input order and
length, returns malformed records (missing/empty `name` or
`owner.login`) unchanged — retained, without a `commits` attribute — and
gives every well-formed record a `commits` list. -/
theorem normalize_malformed_tolerance (projects_dir : FSDir) (commits_fs : FS)
    (hok : ∀ p ∈ load_all_jsons_from_dir projects_dir, recScanOk p = true) :
    ∃ out, normalize_projects_and_commits projects_dir commits_fs = .ok out ∧
      out.length = (load_all_jsons_from_dir projects_dir).length ∧
      (∀ (i : Nat) (p : JV), (load_all_jsons_from_dir projects_dir)[i]? = some p →
        (hasIdentity p = false → out[i]? = some p) ∧
        (hasIdentity p = true → ∃ cs, out[i]? = some (p.set "commits" (.list cs)))) :=
  mapM_normalize_step commits_fs (load_all_jsons_from_dir projects_dir) hok

/-- Witness for C3's amended theorem at a concrete one-record input. -/
theorem normalize_malformed_tolerance_witness :
    ∃ out, normalize_projects_and_commits dirC3 ⟨[]⟩ = .ok out ∧
      out.length = (load_all_jsons_from_dir dirC3).length ∧
      (∀ (i : Nat) (p : JV), (load_all_jsons_from_dir dirC3)[i]? = some p →
        (hasIdentity p = false → out[i]? = some p) ∧
        (hasIdentity p = true → ∃ cs, out[i]? = some (p.set "commits" (.list cs)))) :=
  normalize_malformed_tolerance dirC3 ⟨[]⟩ (by decide)

/-- C4 counterexample: for owner "u" and repo "a?b" the collector
persists under `_safe_dir_name`'s "u__a_b", but the normalizer derives
the unsanitized "u__a?b"; even though the collector's directory exists
and holds one commit page, normalization assigns `commits == []` —
refuting the claim that the derived names always coincide. -/
theorem normalizer_dir_name_mismatch :
    safe_dir_name "u" "a?b" = "u__a_b" ∧
    (fsC4.findDir (safe_dir_name "u" "a?b")).isSome = true ∧
    normalize_projects_and_commits dirC4 fsC4 = .ok [recC4.set "commits" (.list [])] :=
  ⟨rfl, rfl, rfl⟩

theorem safe_dir_name_of_safe_chars (login name : String)
    (hchars : ∀ c ∈ (login ++ "__" ++ name).data, c ∉ specialChars) :
    safe_dir_name login name = login ++ "__" ++ name := by
  rw [safe_dir_name]
  have hid : ∀ c ∈ (login ++ "__" ++ name).data,
      (if specialChars.contains c then '_' else c) = id c := by
    intro c hc
    have hcm := hchars c hc
    simp only [id_eq, ite_eq_right_iff]
    intro hcon
    exact absurd (by simpa using hcon) hcm
  rw [List.map_congr_left hid, List.map_id]
  exact String.asString_toList _

theorem normalize_step_join (p : JV) (kvs okvs : List (String × JV))
    (login name : String) (fs : FS)
    (hp : p = .obj kvs)
    (hname : p.get? "name" = some (.str name))
    (howner : p.get? "owner" = some (.obj okvs))
    (hlogin : (JV.obj okvs).get? "login" = some (.str login))
    (hn : name ≠ "") (hl : login ≠ "")
    (hchars : ∀ c ∈ (login ++ "__" ++ name).data, c ∉ specialChars) :
    safe_dir_name login name = login ++ "__" ++ name ∧
    normalize_step fs p = .ok (p.set "commits" (.list
      (match fs.findDir (login ++ "__" ++ name) with
       | some d => load_all_jsons_from_folder d
       | none => []))) := by
  have hsafe : safe_dir_name login name = login ++ "__" ++ name :=
    safe_dir_name_of_safe_chars login name hchars
  refine ⟨hsafe, ?_⟩
  subst hp
  have hne : name.isEmpty = false := by
    cases hemp : name.isEmpty
    · rfl
    · exact absurd ((String.isEmpty_iff name).mp hemp) hn
  have hle : login.isEmpty = false := by
    cases hemp : login.isEmpty
    · rfl
    · exact absurd ((String.isEmpty_iff login).mp hemp) hl
  simp only [normalize_step, hname, howner, Option.getD_some, hlogin, truthyOpt, truthy,
    hne, hle, Bool.not_false, Bool.not_true, Bool.false_or, Bool.or_false, pyStr]
  cases hfind : fs.findDir (login ++ "__" ++ name) <;> simp [hfind]

/-- C4 (amended): when `owner__repo` contains none of the path-unsafe
characters replaced by `_safe_dir_name`, the normalizer's unsanitized
`login__name` folder name coincides with the collector's directory
name, and the record's `commits` attribute is the concatenation of the
page files of that directory when it exists, the empty sequence
otherwise. -/
theorem normalize_join_safe_names (p : JV) (kvs okvs : List (String × JV))
    (login name : String) (fs : FS)
    (hp : p = .obj kvs)
    (hname : p.get? "name" = some (.str name))
    (howner : p.get? "owner" = some (.obj okvs))
    (hlogin : (JV.obj okvs).get? "login" = some (.str login))
    (hn : name ≠ "") (hl : login ≠ "")
    (hchars : ∀ c ∈ (login ++ "__" ++ name).data, c ∉ specialChars) :
    safe_dir_name login name = login ++ "__" ++ name ∧
    normalize_step fs p = .ok (p.set "commits" (.list
      (match fs.findDir (login ++ "__" ++ name) with
       | some d => load_all_jsons_from_folder d
       | none => []))) :=
  normalize_step_join p kvs okvs login name fs hp hname howner hlogin hn hl hchars

/-- Witness for C4's amended theorem at the spec's own example: record
(name "r1", owner "u") joined against a `u__r1` directory. -/
theorem normalize_join_safe_names_witness :
    safe_dir_name "u" "r1" = "u" ++ "__" ++ "r1" ∧
    normalize_step fsW recW = .ok (recW.set "commits" (.list
      (match fsW.findDir ("u" ++ "__" ++ "r1") with
       | some d => load_all_jsons_from_folder d
       | none => []))) :=
  normalize_join_safe_names recW
    [("name", .str "r1"), ("owner", .obj [("login", .str "u")])]
    [("login", .str "u")] "u" "r1" fsW rfl rfl rfl rfl
    (by decide) (by decide) (by decide)

/-- C5 counterexample: a run whose stages all succeed but whose
Elasticsearch indexing raises a connection error exits with code 0 —
refuting the claim that fatal indexing connectivity loss yields a
non-zero exit code. -/
theorem pipeline_exit_zero_on_indexing_failure :
    main_exit envIdxFail {} = 0 := rfl

/-- C5 (amended): the process exits non-zero exactly when a stage-1..3
failure or a skip-precondition failure occurs (missing prerequisite
directory or normalized file); the exit code is independent of the
indexing outcome — every indexing exception, connectivity loss
included, is caught and logged in run_pipeline's step 4, so those runs
(and runs with partial per-document indexing failures) exit zero. -/
theorem pipeline_exit_code (env : PipelineEnv) (f : PipelineFlags) :
    (main_exit env f = 0 ↔
      ((f.skip_projects = true → env.projects_dir_exists = true) ∧
       (f.skip_projects = false → exceptOk env.step_projects = true) ∧
       (f.skip_commits = false → exceptOk env.step_commits = true) ∧
       (f.skip_normalization = true → env.normalized_file_exists = true) ∧
       (f.skip_normalization = false → exceptOk env.step_normalize = true))) ∧
    (∀ idx1 idx2 : Except String (Nat × Nat),
      main_exit { env with step_indexing := idx1 } f
        = main_exit { env with step_indexing := idx2 } f) := by
  obtain ⟨pd, nf, sp, sc, sn, si⟩ := env
  obtain ⟨f1, f2, f3, f4⟩ := f
  constructor
  · cases f1 <;> cases f2 <;> cases f3 <;> cases pd <;> cases nf <;>
      cases sp <;> cases sc <;> cases sn <;>
      simp [main_exit, run_pipeline, exceptOk]
  · intro idx1 idx2
    cases f1 <;> cases f2 <;> cases f3 <;> cases pd <;> cases nf <;>
      cases sp <;> cases sc <;> cases sn <;>
      simp [main_exit, run_pipeline, exceptOk]

theorem projects_loop_pages (items : Nat → List JV) (per_page : Nat) :
    ∀ n start fuel acc out writes reqs,
      n + 1 ≤ fuel →
      (∀ p, start ≤ p → p < start + n → (items p).length = per_page) →
      1 ≤ (items (start + n)).length →
      (items (start + n)).length < per_page →
      ∃ dirOut,
        fetch_all_projects_loop (fun p => .list (items p)) per_page fuel start acc out writes reqs
          = some (.ok (acc ++ concatPages items start (n + 1), dirOut,
              writes ++ pageWrites items start (n + 1), reqs + (n + 1))) := by
  intro n
  induction n with
  | zero =>
    intro start fuel acc out writes reqs hfuel hfull hm1 hm2
    simp only [Nat.add_zero] at hm1 hm2
    obtain ⟨f, rfl⟩ : ∃ f, fuel = f + 1 := ⟨fuel - 1, by omega⟩
    have hne : (items start).isEmpty = false := by
      rw [List.isEmpty_eq_false]
      intro hnil
      rw [hnil] at hm1
      simp at hm1
    refine ⟨out.writeFile (pageFileName start) (.list (items start)), ?_⟩
    simp only [fetch_all_projects_loop, hne, Bool.false_eq_true, if_false,
      concatPages, pageWrites]
    rw [if_pos hm2]
    simp
  | succ m ih =>
    intro start fuel acc out writes reqs hfuel hfull hm1 hm2
    obtain ⟨f, rfl⟩ : ∃ f, fuel = f + 1 := ⟨fuel - 1, by omega⟩
    have hlen : (items start).length = per_page :=
      hfull start (Nat.le_refl _) (by omega)
    have hpp : 2 ≤ per_page := by
      have := hm2
      omega
    have hne : (items start).isEmpty = false := by
      rw [List.isEmpty_eq_false]
      intro hnil
      rw [hnil] at hlen
      simp at hlen
      omega
    obtain ⟨dirOut, hrec⟩ := ih (start + 1) f
      (acc ++ items start)
      (out.writeFile (pageFileName start) (.list (items start)))
      (writes ++ [(start, items start)]) (reqs + 1)
      (by omega)
      (fun p h1 h2 => hfull p (by omega) (by omega))
      (by have := hm1; rw [show start + 1 + m = start + (m + 1) from by omega]; exact this)
      (by have := hm2; rw [show start + 1 + m = start + (m + 1) from by omega]; exact this)
    refine ⟨dirOut, ?_⟩
    simp only [fetch_all_projects_loop, hne, Bool.false_eq_true, if_false]
    rw [if_neg (by omega : ¬ (items start).length < per_page)]
    rw [hrec]
    simp only [concatPages, pageWrites, List.append_assoc, List.singleton_append,
      List.cons_append, Option.some.injEq, Except.ok.injEq, Prod.mk.injEq,
      and_true, true_and, eq_self_iff_true, List.nil_append]
    omega

theorem repo_loop_pages (endpoint : JV × JV → Nat → JV) (key : JV × JV)
    (items : Nat → List JV) (per_page : Nat) (dirName : String)
    (hend : ∀ p, endpoint key p = .list (items p)) :
    ∀ n start fuel acc fs evs,
      n + 1 ≤ fuel →
      (∀ p, start ≤ p → p < start + n → (items p).length = per_page) →
      1 ≤ (items (start + n)).length →
      (items (start + n)).length < per_page →
      ∃ fsOut,
        fetchRepoPages endpoint key per_page dirName fuel start acc fs evs
          = some (.ok (acc ++ concatPages items start (n + 1), fsOut,
              evs ++ repoPageEvs key dirName items start (n + 1))) := by
  intro n
  induction n with
  | zero =>
    intro start fuel acc fs evs hfuel hfull hm1 hm2
    simp only [Nat.add_zero] at hm1 hm2
    obtain ⟨f, rfl⟩ : ∃ f, fuel = f + 1 := ⟨fuel - 1, by omega⟩
    have hne : (items start).isEmpty = false := by
      rw [List.isEmpty_eq_false]
      intro hnil
      rw [hnil] at hm1
      simp at hm1
    refine ⟨fs.writeFile dirName (pageFileName start) (.list (items start)), ?_⟩
    simp only [fetchRepoPages, hend, hne, Bool.false_eq_true, if_false,
      concatPages, repoPageEvs]
    rw [if_pos hm2]
    simp
  | succ m ih =>
    intro start fuel acc fs evs hfuel hfull hm1 hm2
    obtain ⟨f, rfl⟩ : ∃ f, fuel = f + 1 := ⟨fuel - 1, by omega⟩
    have hlen : (items start).length = per_page :=
      hfull start (Nat.le_refl _) (by omega)
    have hpp : 2 ≤ per_page := by
      have := hm2
      omega
    have hne : (items start).isEmpty = false := by
      rw [List.isEmpty_eq_false]
      intro hnil
      rw [hnil] at hlen
      simp at hlen
      omega
    obtain ⟨fsOut, hrec⟩ := ih (start + 1) f
      (acc ++ items start)
      (fs.writeFile dirName (pageFileName start) (.list (items start)))
      (evs ++ [.request key start] ++ [.writePage dirName start (items start)])
      (by omega)
      (fun p h1 h2 => hfull p (by omega) (by omega))
      (by have := hm1; rw [show start + 1 + m = start + (m + 1) from by omega]; exact this)
      (by have := hm2; rw [show start + 1 + m = start + (m + 1) from by omega]; exact this)
    refine ⟨fsOut, ?_⟩
    simp only [fetchRepoPages, hend, hne, Bool.false_eq_true, if_false]
    rw [if_neg (by omega : ¬ (items start).length < per_page)]
    rw [hrec]
    simp only [concatPages, repoPageEvs, List.append_assoc, List.singleton_append,
      List.cons_append, Option.some.injEq, Except.ok.injEq, Prod.mk.injEq,
      and_true, true_and, eq_self_iff_true, List.nil_append]

theorem projects_loop_empty_first (endpoint : Nat → JV) (per_page fuel : Nat) (d : FSDir)
    (h1 : endpoint 1 = .list []) (hf : 1 ≤ fuel) :
    fetch_all_projects endpoint d per_page fuel = some (.ok ([], d, [], 1)) := by
  obtain ⟨f, rfl⟩ : ∃ f, fuel = f + 1 := ⟨fuel - 1, by omega⟩
  simp [fetch_all_projects, fetch_all_projects_loop, h1]

theorem repo_loop_empty_first (endpoint : JV × JV → Nat → JV) (key : JV × JV)
    (per_page fuel : Nat) (dirName : String) (fs : FS) (evs : List Ev)
    (h1 : endpoint key 1 = .list []) (hf : 1 ≤ fuel) :
    fetchRepoPages endpoint key per_page dirName fuel 1 [] fs evs
      = some (.ok ([], fs, evs ++ [.request key 1])) := by
  obtain ⟨f, rfl⟩ : ∃ f, fuel = f + 1 := ⟨fuel - 1, by omega⟩
  simp [fetchRepoPages, h1]

/-- C8 (confirmed): for a paginated endpoint returning `per_page` items
on pages 1..k-1 and m items with 1 ≤ m < per_page on page k, both
collectors issue exactly k requests and persist exactly k page files
(the short page included), returning the concatenation of all pages in
fetch order; and when page 1 returns zero items, exactly one request is
issued, the result is empty, and no page file is written.  Stated for
`fetch_all_projects` (writes/request counter) and for the per-repository
commit pagination loop (event trace). -/
theorem collector_pagination (items : Nat → List JV) (per_page k fuel : Nat) (d : FSDir)
    (e1 : Nat → JV) (eC eCe : JV × JV → Nat → JV)
    (key : JV × JV) (dirName : String) (fs : FS) (evs : List Ev)
    (hk : 1 ≤ k) (hfuel : k ≤ fuel)
    (hfull : ∀ p, 1 ≤ p → p < k → (items p).length = per_page)
    (hm1 : 1 ≤ (items k).length) (hm2 : (items k).length < per_page)
    (hempty1 : e1 1 = .list []) (hC : ∀ p, eC key p = .list (items p))
    (hCe : eCe key 1 = .list []) :
    (∃ dirOut, fetch_all_projects (fun p => .list (items p)) d per_page fuel
        = some (.ok (concatPages items 1 k, dirOut, pageWrites items 1 k, k))) ∧
    fetch_all_projects e1 d per_page fuel = some (.ok ([], d, [], 1)) ∧
    (∃ fsOut, fetchRepoPages eC key per_page dirName fuel 1 [] fs evs
        = some (.ok (concatPages items 1 k, fsOut, evs ++ repoPageEvs key dirName items 1 k))) ∧
    fetchRepoPages eCe key per_page dirName fuel 1 [] fs evs
      = some (.ok ([], fs, evs ++ [.request key 1])) := by
  obtain ⟨n, rfl⟩ : ∃ n, k = n + 1 := ⟨k - 1, by omega⟩
  refine ⟨?_, projects_loop_empty_first e1 per_page fuel d hempty1 (by omega), ?_,
    repo_loop_empty_first eCe key per_page fuel dirName fs evs hCe (by omega)⟩
  · obtain ⟨dirOut, h⟩ := projects_loop_pages items per_page n 1 fuel [] d [] 0
      (by omega) (fun p h1 h2 => hfull p h1 (by omega))
      (by rw [show (1 : Nat) + n = n + 1 from by omega]; exact hm1)
      (by rw [show (1 : Nat) + n = n + 1 from by omega]; exact hm2)
    refine ⟨dirOut, ?_⟩
    rw [fetch_all_projects, h]
    simp
  · obtain ⟨fsOut, h⟩ := repo_loop_pages eC key items per_page dirName hC n 1 fuel [] fs evs
      (by omega) (fun p h1 h2 => hfull p h1 (by omega))
      (by rw [show (1 : Nat) + n = n + 1 from by omega]; exact hm1)
      (by rw [show (1 : Nat) + n = n + 1 from by omega]; exact hm2)
    refine ⟨fsOut, ?_⟩
    rw [h]
    simp



/-- Witness for C8 -/
theorem collector_pagination_witness :
    (∃ dirOut, fetch_all_projects (fun p => .list (itemsW p)) ⟨[]⟩ 2 2
        = some (.ok (concatPages itemsW 1 2, dirOut, pageWrites itemsW 1 2, 2))) ∧
    fetch_all_projects emptyEndpoint1 ⟨[]⟩ 2 2 = some (.ok ([], ⟨[]⟩, [], 1)) ∧
    (∃ fsOut, fetchRepoPages endpointW keyW 2 "u__r" 2 1 [] ⟨[]⟩ []
        = some (.ok (concatPages itemsW 1 2, fsOut, [] ++ repoPageEvs keyW "u__r" itemsW 1 2))) ∧
    fetchRepoPages emptyEndpointC keyW 2 "u__r" 2 1 [] ⟨[]⟩ []
      = some (.ok ([], ⟨[]⟩, [] ++ [.request keyW 1])) :=
  collector_pagination itemsW 2 2 2 ⟨[]⟩ emptyEndpoint1 endpointW emptyEndpointC keyW
    "u__r" ⟨[]⟩ []
    (by decide) (by decide)
    (fun p h1 h2 => by
      have hp : p = 1 := by omega
      subst hp
      rfl)
    (by decide) (by decide) rfl (fun p => rfl) rfl



theorem jvkey_beq_iff (k k2 : JV × JV) (h : isStrKey k = true) (h2 : isStrKey k2 = true) :
    (k == k2) = true ↔ k = k2 := by
  obtain ⟨a, b⟩ := k
  obtain ⟨c, d⟩ := k2
  cases a <;> cases b <;> simp [isStrKey] at h
  cases c <;> cases d <;> simp [isStrKey] at h2
  show (JV.beq _ _ && JV.beq _ _) = true ↔ _
  simp [JV.beq, Prod.mk.injEq]

theorem contains_iff_mem_typed (l : List (JV × JV)) (hl : ∀ x ∈ l, isStrKey x = true)
    (k : JV × JV) (hk : isStrKey k = true) :
    l.contains k = true ↔ k ∈ l := by
  induction l with
  | nil => simp
  | cons x xs ih =>
    have hx := hl x (List.mem_cons_self x xs)
    rw [List.contains_cons]
    simp only [Bool.or_eq_true, List.mem_cons]
    rw [jvkey_beq_iff k x hk hx, ih (fun y hy => hl y (List.mem_cons_of_mem x hy))]

theorem uniqueReposAux_eq (ps : List JV) :
    ∀ seen uniq, uniqueReposAux ps seen uniq
      = uniq ++ dedupFS seen (ps.filterMap extract_owner_repo) := by
  induction ps with
  | nil => intro seen uniq; simp [uniqueReposAux, dedupFS]
  | cons p rest ih =>
    intro seen uniq
    cases hx : extract_owner_repo p with
    | none => simp [uniqueReposAux, hx, List.filterMap_cons, ih]
    | some k =>
      by_cases hc : seen.contains k = true
      · simp [uniqueReposAux, hx, List.filterMap_cons, dedupFS, hc, ih]
      · simp [uniqueReposAux, hx, List.filterMap_cons, dedupFS, hc, ih]

theorem dedupFS_subset (k : JV × JV) :
    ∀ ks seen, k ∈ dedupFS seen ks → k ∈ ks := by
  intro ks
  induction ks with
  | nil => intro seen h; simp [dedupFS] at h
  | cons x xs ih =>
    intro seen h
    rw [dedupFS] at h
    by_cases hc : seen.contains x = true
    · rw [if_pos hc] at h
      exact List.mem_cons_of_mem x (ih seen h)
    · rw [if_neg hc] at h
      rcases List.mem_cons.1 h with rfl | h2
      · exact List.mem_cons_self _ _
      · exact List.mem_cons_of_mem x (ih (x :: seen) h2)

theorem dedupFS_count (k : JV × JV) (hk : isStrKey k = true) :
    ∀ ks seen, (∀ x ∈ ks, isStrKey x = true) → (∀ x ∈ seen, isStrKey x = true) →
      (dedupFS seen ks).count k
        = if ks.contains k && !seen.contains k then 1 else 0 := by
  intro ks
  induction ks with
  | nil => intro seen _ _; simp [dedupFS]
  | cons x xs ih =>
    intro seen hks hseen
    have hx := hks x (List.mem_cons_self x xs)
    have htail := fun y hy => hks y (List.mem_cons_of_mem x hy)
    by_cases hc : seen.contains x = true
    · rw [dedupFS, if_pos hc, ih seen htail hseen]
      by_cases hkx : k = x
      · subst hkx
        simp [List.contains_cons, hc]
      · have hb : (k == x) = false := by
          rw [← Bool.not_eq_true]
          intro hbt
          exact hkx ((jvkey_beq_iff k x hk hx).1 hbt)
        simp [List.contains_cons, hb]
    · rw [dedupFS, if_neg hc, List.count_cons,
        ih (x :: seen) htail
          (fun y hy => by
            rcases List.mem_cons.1 hy with rfl | hy2
            · exact hx
            · exact hseen y hy2)]
      by_cases hkx : k = x
      · subst hkx
        have hb : (k == k) = true := (jvkey_beq_iff k k hk hk).2 rfl
        simp only [Bool.not_eq_true] at hc
        simp [List.contains_cons, hb, hc]
      · have hb : (k == x) = false := by
          rw [← Bool.not_eq_true]
          intro hbt
          exact hkx ((jvkey_beq_iff k x hk hx).1 hbt)
        have hb2 : (x == k) = false := by
          rw [← Bool.not_eq_true]
          intro hbt
          exact hkx ((jvkey_beq_iff x k hx hk).1 hbt).symm
        simp [List.contains_cons, hb, hb2]

theorem countReq1_append (k : JV × JV) (a b : List Ev) :
    countReq1 k (a ++ b) = countReq1 k a + countReq1 k b := by
  induction a with
  | nil => simp [countReq1]
  | cons e rest ih => simp [countReq1, ih]; omega

theorem countReqAll_append (k : JV × JV) (a b : List Ev) :
    countReqAll k (a ++ b) = countReqAll k a + countReqAll k b := by
  induction a with
  | nil => simp [countReqAll]
  | cons e rest ih => simp [countReqAll, ih]; omega

theorem fetchRepoPages_countReq1_high (endpoint : JV × JV → Nat → JV) (key : JV × JV)
    (per_page : Nat) (dirName : String) (k : JV × JV) :
    ∀ fuel page acc fs evs c f e2,
      2 ≤ page →
      fetchRepoPages endpoint key per_page dirName fuel page acc fs evs
        = some (.ok (c, f, e2)) →
      countReq1 k e2 = countReq1 k evs := by
  intro fuel
  induction fuel with
  | zero =>
    intro page acc fs evs c f e2 hp h
    simp [fetchRepoPages] at h
  | succ m ih =>
    intro page acc fs evs c f e2 hp h
    have hpage : (page == 1) = false := by
      rw [← Bool.not_eq_true, beq_iff_eq]
      omega
    cases hep : endpoint key page with
    | list commits =>
      simp only [fetchRepoPages, hep] at h
      by_cases hemp : commits.isEmpty = true
      · rw [if_pos hemp] at h
        simp only [Option.some.injEq, Except.ok.injEq, Prod.mk.injEq] at h
        rw [← h.2.2, countReq1_append]
        simp [countReq1, hpage]
      · rw [if_neg hemp] at h
        by_cases hshort : commits.length < per_page
        · rw [if_pos hshort] at h
          simp only [Option.some.injEq, Except.ok.injEq, Prod.mk.injEq] at h
          rw [← h.2.2, countReq1_append, countReq1_append]
          simp [countReq1, hpage]
        · rw [if_neg hshort] at h
          rw [ih (page + 1) _ _ _ _ _ _ (by omega) h, countReq1_append, countReq1_append]
          simp [countReq1, hpage]
    | null => simp [fetchRepoPages, hep] at h
    | bool b => simp [fetchRepoPages, hep] at h
    | str s => simp [fetchRepoPages, hep] at h
    | num n => simp [fetchRepoPages, hep] at h
    | obj kvs => simp [fetchRepoPages, hep] at h

theorem fetchRepoPages_countReq1_start (endpoint : JV × JV → Nat → JV) (key : JV × JV)
    (per_page : Nat) (dirName : String) (k : JV × JV) :
    ∀ fuel acc fs evs c f e2,
      fetchRepoPages endpoint key per_page dirName fuel 1 acc fs evs
        = some (.ok (c, f, e2)) →
      countReq1 k e2 = countReq1 k evs + (if key == k then 1 else 0) := by
  intro fuel
  cases fuel with
  | zero =>
    intro acc fs evs c f e2 h
    simp [fetchRepoPages] at h
  | succ m =>
    intro acc fs evs c f e2 h
    cases hep : endpoint key 1 with
    | list commits =>
      simp only [fetchRepoPages, hep] at h
      by_cases hemp : commits.isEmpty = true
      · rw [if_pos hemp] at h
        simp only [Option.some.injEq, Except.ok.injEq, Prod.mk.injEq] at h
        rw [← h.2.2, countReq1_append]
        simp [countReq1]
      · rw [if_neg hemp] at h
        by_cases hshort : commits.length < per_page
        · rw [if_pos hshort] at h
          simp only [Option.some.injEq, Except.ok.injEq, Prod.mk.injEq] at h
          rw [← h.2.2, countReq1_append, countReq1_append]
          simp [countReq1]
        · rw [if_neg hshort] at h
          rw [fetchRepoPages_countReq1_high endpoint key per_page dirName k
            m 2 _ _ _ _ _ _ (by omega) h, countReq1_append, countReq1_append]
          simp [countReq1]
    | null => simp [fetchRepoPages, hep] at h
    | bool b => simp [fetchRepoPages, hep] at h
    | str s => simp [fetchRepoPages, hep] at h
    | num n => simp [fetchRepoPages, hep] at h
    | obj kvs => simp [fetchRepoPages, hep] at h

theorem fetchReposLoop_countReq1 (endpoint : JV × JV → Nat → JV) (per_page fuel : Nat)
    (k : JV × JV) :
    ∀ ks res fs evs out,
      fetchReposLoop endpoint per_page fuel ks res fs evs = some (.ok out) →
      countReq1 k out.2.2 = countReq1 k evs + ks.count k := by
  intro ks
  induction ks with
  | nil =>
    intro res fs evs out h
    simp only [fetchReposLoop, Option.some.injEq, Except.ok.injEq] at h
    rw [← h]
    simp
  | cons key rest ih =>
    intro res fs evs out h
    rw [fetchReposLoop] at h
    cases hseg : fetchRepoPages endpoint key per_page
        (safe_dir_name (pyStr key.1) (pyStr key.2)) fuel 1 []
        (fs.mkdirP (safe_dir_name (pyStr key.1) (pyStr key.2)))
        (evs ++ [.mkdir (safe_dir_name (pyStr key.1) (pyStr key.2))]) with
    | none => rw [hseg] at h; simp at h
    | some r =>
      rw [hseg] at h
      cases r with
      | error e => simp at h
      | ok triple =>
        obtain ⟨c, f2, e2⟩ := triple
        have hstart := fetchRepoPages_countReq1_start endpoint key per_page
          (safe_dir_name (pyStr key.1) (pyStr key.2)) k fuel _ _ _ _ _ _ hseg
        rw [ih _ _ _ _ h, hstart, countReq1_append, List.count_cons]
        simp [countReq1]
        omega

/-- C9 (confirmed): within one `fetch_all_commits` run over records
whose extractable keys are string pairs, the unique-repository list is
the first-seen deduplication of the extractable (owner, repo) keys
(records yielding no key are excluded and do not change the list), each
appearing key occurs exactly once in it, and a successful fetch run
issues exactly one page-1 commits request per appearing key — zero for
keys that do not appear. -/
theorem commit_fetch_dedup (projects : List JV) (endpoint : JV × JV → Nat → JV)
    (per_page fuel : Nat) (res : List (String × List JV)) (fs : FS)
    (out : List (String × List JV) × FS × List Ev) (k : JV × JV)
    (hstr : ∀ p ∈ projects, keyTyped p = true) (hk : isStrKey k = true)
    (hrun : fetchReposLoop endpoint per_page fuel (uniqueRepos projects) res fs []
        = some (.ok out)) :
    uniqueRepos projects = dedupFS [] (projects.filterMap extract_owner_repo) ∧
    (∀ p, extract_owner_repo p = none →
      uniqueRepos (p :: projects) = uniqueRepos projects) ∧
    ((uniqueRepos projects).count k
      = if (projects.filterMap extract_owner_repo).contains k then 1 else 0) ∧
    ((projects.filterMap extract_owner_repo).contains k = true
      ↔ k ∈ projects.filterMap extract_owner_repo) ∧
    countReq1 k out.2.2
      = if (projects.filterMap extract_owner_repo).contains k then 1 else 0 := by
  have hkeys : ∀ x ∈ projects.filterMap extract_owner_repo, isStrKey x = true := by
    intro x hx
    obtain ⟨p, hp, hex⟩ := List.mem_filterMap.1 hx
    have hkt := hstr p hp
    rw [keyTyped, hex] at hkt
    exact hkt
  have h1 : uniqueRepos projects = dedupFS [] (projects.filterMap extract_owner_repo) := by
    rw [uniqueRepos, uniqueReposAux_eq]
    simp
  have hcount : (uniqueRepos projects).count k
      = if (projects.filterMap extract_owner_repo).contains k then 1 else 0 := by
    rw [h1, dedupFS_count k hk _ [] hkeys (by simp)]
    simp
  refine ⟨h1, ?_, hcount, contains_iff_mem_typed _ hkeys k hk, ?_⟩
  · intro p hnone
    rw [uniqueRepos, uniqueRepos]
    simp only [uniqueReposAux, hnone]
  · rw [fetchReposLoop_countReq1 endpoint per_page fuel k _ _ _ _ _ hrun, hcount]
    simp [countReq1]

/-- Witness for C9 -/
theorem commit_fetch_dedup_witness :
    uniqueRepos projectsDup = dedupFS [] (projectsDup.filterMap extract_owner_repo) ∧
    (∀ p, extract_owner_repo p = none →
      uniqueRepos (p :: projectsDup) = uniqueRepos projectsDup) ∧
    ((uniqueRepos projectsDup).count keyW2
      = if (projectsDup.filterMap extract_owner_repo).contains keyW2 then 1 else 0) ∧
    ((projectsDup.filterMap extract_owner_repo).contains keyW2 = true
      ↔ keyW2 ∈ projectsDup.filterMap extract_owner_repo) ∧
    countReq1 keyW2 outW.2.2
      = if (projectsDup.filterMap extract_owner_repo).contains keyW2 then 1 else 0 :=
  commit_fetch_dedup projectsDup endpointEmptyW 100 1 [] ⟨[]⟩ outW keyW2
    (by decide) (by decide) rfl



theorem fetchRepoPages_evs_extend (endpoint : JV × JV → Nat → JV) (key : JV × JV)
    (per_page : Nat) (dirName : String) :
    ∀ fuel page acc fs evs c f e2,
      fetchRepoPages endpoint key per_page dirName fuel page acc fs evs
        = some (.ok (c, f, e2)) →
      ∃ rest, e2 = evs ++ rest := by
  intro fuel
  induction fuel with
  | zero =>
    intro page acc fs evs c f e2 h
    simp [fetchRepoPages] at h
  | succ m ih =>
    intro page acc fs evs c f e2 h
    cases hep : endpoint key page with
    | list commits =>
      simp only [fetchRepoPages, hep] at h
      by_cases hemp : commits.isEmpty = true
      · rw [if_pos hemp] at h
        simp only [Option.some.injEq, Except.ok.injEq, Prod.mk.injEq] at h
        exact ⟨[.request key page], by rw [← h.2.2]⟩
      · rw [if_neg hemp] at h
        by_cases hshort : commits.length < per_page
        · rw [if_pos hshort] at h
          simp only [Option.some.injEq, Except.ok.injEq, Prod.mk.injEq] at h
          exact ⟨[.request key page, .writePage dirName page commits], by
            rw [← h.2.2]; simp⟩
        · rw [if_neg hshort] at h
          obtain ⟨rest, hrest⟩ := ih (page + 1) _ _ _ _ _ _ h
          exact ⟨[.request key page, .writePage dirName page commits] ++ rest, by
            rw [hrest]; simp⟩
    | null => simp [fetchRepoPages, hep] at h
    | bool b => simp [fetchRepoPages, hep] at h
    | str s => simp [fetchRepoPages, hep] at h
    | num n => simp [fetchRepoPages, hep] at h
    | obj kvs => simp [fetchRepoPages, hep] at h

theorem fetchReposLoop_evs_extend (endpoint : JV × JV → Nat → JV) (per_page fuel : Nat) :
    ∀ ks res fs evs out,
      fetchReposLoop endpoint per_page fuel ks res fs evs = some (.ok out) →
      ∃ rest, out.2.2 = evs ++ rest := by
  intro ks
  induction ks with
  | nil =>
    intro res fs evs out h
    simp only [fetchReposLoop, Option.some.injEq, Except.ok.injEq] at h
    exact ⟨[], by rw [← h]; simp⟩
  | cons key rest ih =>
    intro res fs evs out h
    rw [fetchReposLoop] at h
    cases hseg : fetchRepoPages endpoint key per_page
        (safe_dir_name (pyStr key.1) (pyStr key.2)) fuel 1 []
        (fs.mkdirP (safe_dir_name (pyStr key.1) (pyStr key.2)))
        (evs ++ [.mkdir (safe_dir_name (pyStr key.1) (pyStr key.2))]) with
    | none => rw [hseg] at h; simp at h
    | some r =>
      rw [hseg] at h
      cases r with
      | error e => simp at h
      | ok triple =>
        obtain ⟨c, f2, e2⟩ := triple
        obtain ⟨r1, hr1⟩ := fetchRepoPages_evs_extend endpoint key per_page
          (safe_dir_name (pyStr key.1) (pyStr key.2)) fuel _ _ _ _ _ _ _ hseg
        obtain ⟨r2, hr2⟩ := ih _ _ _ _ h
        exact ⟨[.mkdir (safe_dir_name (pyStr key.1) (pyStr key.2))] ++ r1 ++ r2, by
          rw [hr2, hr1]; simp⟩

theorem fetchRepoPages_countReqAll_other (endpoint : JV × JV → Nat → JV) (key : JV × JV)
    (per_page : Nat) (dirName : String) (k : JV × JV) (hne : (key == k) = false) :
    ∀ fuel page acc fs evs c f e2,
      fetchRepoPages endpoint key per_page dirName fuel page acc fs evs
        = some (.ok (c, f, e2)) →
      countReqAll k e2 = countReqAll k evs := by
  intro fuel
  induction fuel with
  | zero =>
    intro page acc fs evs c f e2 h
    simp [fetchRepoPages] at h
  | succ m ih =>
    intro page acc fs evs c f e2 h
    cases hep : endpoint key page with
    | list commits =>
      simp only [fetchRepoPages, hep] at h
      by_cases hemp : commits.isEmpty = true
      · rw [if_pos hemp] at h
        simp only [Option.some.injEq, Except.ok.injEq, Prod.mk.injEq] at h
        rw [← h.2.2, countReqAll_append]
        simp [countReqAll, hne]
      · rw [if_neg hemp] at h
        by_cases hshort : commits.length < per_page
        · rw [if_pos hshort] at h
          simp only [Option.some.injEq, Except.ok.injEq, Prod.mk.injEq] at h
          rw [← h.2.2, countReqAll_append, countReqAll_append]
          simp [countReqAll, hne]
        · rw [if_neg hshort] at h
          rw [ih (page + 1) _ _ _ _ _ _ h, countReqAll_append, countReqAll_append]
          simp [countReqAll, hne]
    | null => simp [fetchRepoPages, hep] at h
    | bool b => simp [fetchRepoPages, hep] at h
    | str s => simp [fetchRepoPages, hep] at h
    | num n => simp [fetchRepoPages, hep] at h
    | obj kvs => simp [fetchRepoPages, hep] at h

theorem exists_first_split (k : JV × JV) :
    ∀ l : List (JV × JV), k ∈ l → ∃ s t, l = s ++ k :: t ∧ k ∉ s := by
  intro l
  induction l with
  | nil => intro h; simp at h
  | cons x xs ih =>
    intro h
    by_cases hx : x = k
    · subst hx
      exact ⟨[], xs, rfl, by simp⟩
    · have h2 : k ∈ xs := by
        rcases List.mem_cons.1 h with rfl | h2
        · exact absurd rfl hx
        · exact h2
      obtain ⟨s, t, hst, hks⟩ := ih h2
      refine ⟨x :: s, t, by rw [hst, List.cons_append], ?_⟩
      simp only [List.mem_cons]
      rintro (rfl | hm)
      · exact hx rfl
      · exact hks hm

theorem fetchReposLoop_mkdir_before (endpoint : JV × JV → Nat → JV) (per_page fuel : Nat)
    (k : JV × JV) :
    ∀ pre post res fs evs out,
      (∀ x ∈ pre, (x == k) = false) →
      countReqAll k evs = 0 →
      fetchReposLoop endpoint per_page fuel (pre ++ k :: post) res fs evs = some (.ok out) →
      ∃ preT postT,
        out.2.2 = preT ++ .mkdir (safe_dir_name (pyStr k.1) (pyStr k.2)) :: postT ∧
        countReqAll k preT = 0 := by
  intro pre
  induction pre with
  | nil =>
    intro post res fs evs out hpre hevs hrun
    rw [List.nil_append, fetchReposLoop] at hrun
    cases hseg : fetchRepoPages endpoint k per_page
        (safe_dir_name (pyStr k.1) (pyStr k.2)) fuel 1 []
        (fs.mkdirP (safe_dir_name (pyStr k.1) (pyStr k.2)))
        (evs ++ [.mkdir (safe_dir_name (pyStr k.1) (pyStr k.2))]) with
    | none => rw [hseg] at hrun; simp at hrun
    | some r =>
      rw [hseg] at hrun
      cases r with
      | error e => simp at hrun
      | ok triple =>
        obtain ⟨c, f2, e2⟩ := triple
        obtain ⟨r1, hr1⟩ := fetchRepoPages_evs_extend endpoint k per_page
          (safe_dir_name (pyStr k.1) (pyStr k.2)) fuel _ _ _ _ _ _ _ hseg
        obtain ⟨r2, hr2⟩ := fetchReposLoop_evs_extend endpoint per_page fuel _ _ _ _ _ hrun
        refine ⟨evs, r1 ++ r2, ?_, hevs⟩
        rw [hr2, hr1]
        simp
  | cons x pre2 ih =>
    intro post res fs evs out hpre hevs hrun
    rw [List.cons_append, fetchReposLoop] at hrun
    cases hseg : fetchRepoPages endpoint x per_page
        (safe_dir_name (pyStr x.1) (pyStr x.2)) fuel 1 []
        (fs.mkdirP (safe_dir_name (pyStr x.1) (pyStr x.2)))
        (evs ++ [.mkdir (safe_dir_name (pyStr x.1) (pyStr x.2))]) with
    | none => rw [hseg] at hrun; simp at hrun
    | some r =>
      rw [hseg] at hrun
      cases r with
      | error e => simp at hrun
      | ok triple =>
        obtain ⟨c, f2, e2⟩ := triple
        have hxk : (x == k) = false := hpre x (List.mem_cons_self x pre2)
        have he2 : countReqAll k e2 = 0 := by
          rw [fetchRepoPages_countReqAll_other endpoint x per_page
            (safe_dir_name (pyStr x.1) (pyStr x.2)) k hxk fuel _ _ _ _ _ _ _ hseg,
            countReqAll_append]
          simp [countReqAll, hevs]
        exact ih post _ _ _ _ (fun y hy => hpre y (List.mem_cons_of_mem x hy)) he2 hrun

theorem find?_append_none {α : Type} (p : α → Bool) (l1 l2 : List α)
    (h : l1.find? p = none) :
    (l1 ++ l2).find? p = l2.find? p := by
  induction l1 with
  | nil => simp
  | cons x xs ih =>
    cases hx : p x with
    | false =>
      rw [List.find?_cons_of_neg _ (by simp [hx])] at h
      rw [List.cons_append, List.find?_cons_of_neg _ (by simp [hx]), ih h]
    | true =>
      rw [List.find?_cons_of_pos _ hx] at h
      cases h

theorem mkdirP_of_not_exists (fs : FS) (d : String) (h : fs.findDir d = none) :
    fs.mkdirP d = ⟨fs.dirs ++ [(d, ⟨[]⟩)]⟩ := by
  have hfind : fs.dirs.find? (fun q => q.1 == d) = none := by
    rw [FS.findDir] at h
    exact Option.map_eq_none'.1 h
  have hany : fs.dirs.any (fun q => q.1 == d) = false := by
    rw [List.any_eq_false]
    intro x hx
    have hq := List.find?_eq_none.1 hfind x hx
    simpa using hq
  rw [FS.mkdirP, if_neg (by simp [hany])]

theorem findDir_append (fs : FS) (d : String) (dir : FSDir) (h : fs.findDir d = none) :
    FS.findDir ⟨fs.dirs ++ [(d, dir)]⟩ d = some dir := by
  have hfind : fs.dirs.find? (fun q => q.1 == d) = none := by
    rw [FS.findDir] at h
    exact Option.map_eq_none'.1 h
  rw [FS.findDir]
  show ((fs.dirs ++ [(d, dir)]).find? (fun q => q.1 == d)).map (fun q => q.2) = some dir
  rw [find?_append_none _ _ _ hfind]
  simp

theorem fetchReposLoop_single_empty (endpoint : JV × JV → Nat → JV)
    (per_page fuel : Nat) (key : JV × JV) (res : List (String × List JV))
    (fs : FS) (evs : List Ev)
    (hdir : fs.findDir (safe_dir_name (pyStr key.1) (pyStr key.2)) = none)
    (hemp : endpoint key 1 = .list []) (hf : 1 ≤ fuel) :
    fetchReposLoop endpoint per_page fuel [key] res fs evs
      = some (.ok (dictSet res (pyStr key.1 ++ "/" ++ pyStr key.2) [],
          ⟨fs.dirs ++ [(safe_dir_name (pyStr key.1) (pyStr key.2), ⟨[]⟩)]⟩,
          evs ++ [.mkdir (safe_dir_name (pyStr key.1) (pyStr key.2)), .request key 1])) := by
  rw [fetchReposLoop, mkdirP_of_not_exists fs _ hdir,
    repo_loop_empty_first endpoint key per_page fuel _ _ _ hemp hf]
  simp [fetchReposLoop]

/-- C10 counterexample: a repository named `a?b` with an empty first
commits page ends the fetch with its directory existing under the
collector's sanitized name `u__a_b` (page-file-free) and mapped to the
empty list — but a later normalization of the matching record looks up
the unsanitized `u__a?b`, which does not exist, and assigns
`commits == []` via the missing-directory branch, not the
existing-directory branch asserted by the claim. -/
theorem commits_empty_dir_join_missed :
    fetchReposLoop endpointEmptyW 100 1 [(.str "u", .str "a?b")] [] ⟨[]⟩ []
      = some (.ok ([("u/a?b", [])], ⟨[("u__a_b", ⟨[]⟩)]⟩,
          [.mkdir "u__a_b", .request (.str "u", .str "a?b") 1])) ∧
    FS.findDir ⟨[("u__a_b", ⟨[]⟩)]⟩ ("u" ++ "__" ++ "a?b") = none ∧
    normalize_step ⟨[("u__a_b", ⟨[]⟩)]⟩ recC4 = .ok (recC4.set "commits" (.list [])) :=
  ⟨rfl, rfl, rfl⟩

/-- C10 (amended): in a successful `fetch_all_commits` run, every
unique repository's directory-creation event precedes every commits
request for that repository (the trace splits at the repository's mkdir
with no earlier request for it); a repository whose first commits page
is empty ends with its directory existing and page-file-free and is
mapped to the empty list in the returned dictionary.  A later
normalization of a matching record takes the existing-directory branch
(`findDir` returns the empty directory) and assigns `commits == []`
when `login__name` contains no path-unsafe characters, so that the
normalizer's unsanitized folder name coincides with the collector's
sanitized one; otherwise the collector's directory is missed and the
empty list comes from the missing-directory branch instead. -/
theorem commits_dir_created_first
    (projects : List JV) (endpoint endpoint2 : JV × JV → Nat → JV)
    (per_page per_page2 fuel fuel2 : Nat)
    (res res2 : List (String × List JV)) (fs fs2 : FS) (evs2 : List Ev)
    (out : List (String × List JV) × FS × List Ev) (k : JV × JV)
    (p : JV) (kvs okvs : List (String × JV)) (login name : String)
    (hstr : ∀ q ∈ projects, keyTyped q = true)
    (hrun : fetchReposLoop endpoint per_page fuel (uniqueRepos projects) res fs []
        = some (.ok out))
    (hkmem : k ∈ uniqueRepos projects)
    (hdir2 : fs2.findDir (safe_dir_name login name) = none)
    (hemp2 : endpoint2 (.str login, .str name) 1 = .list []) (hf2 : 1 ≤ fuel2)
    (hp : p = .obj kvs) (hname : p.get? "name" = some (.str name))
    (howner : p.get? "owner" = some (.obj okvs))
    (hlogin : (JV.obj okvs).get? "login" = some (.str login))
    (hn : name ≠ "") (hl : login ≠ "")
    (hchars : ∀ c ∈ (login ++ "__" ++ name).data, c ∉ specialChars) :
    (∃ preT postT,
        out.2.2 = preT ++ .mkdir (safe_dir_name (pyStr k.1) (pyStr k.2)) :: postT ∧
        countReqAll k preT = 0) ∧
    fetchReposLoop endpoint2 per_page2 fuel2 [(.str login, .str name)] res2 fs2 evs2
      = some (.ok (dictSet res2 (login ++ "/" ++ name) [],
          ⟨fs2.dirs ++ [(safe_dir_name login name, ⟨[]⟩)]⟩,
          evs2 ++ [.mkdir (safe_dir_name login name),
            .request (.str login, .str name) 1])) ∧
    FS.findDir ⟨fs2.dirs ++ [(safe_dir_name login name, ⟨[]⟩)]⟩
      (login ++ "__" ++ name) = some ⟨[]⟩ ∧
    normalize_step ⟨fs2.dirs ++ [(safe_dir_name login name, ⟨[]⟩)]⟩ p
      = .ok (p.set "commits" (.list [])) := by
  have hsafe : safe_dir_name login name = login ++ "__" ++ name :=
    safe_dir_name_of_safe_chars login name hchars
  have hfind2 : FS.findDir ⟨fs2.dirs ++ [(safe_dir_name login name, ⟨[]⟩)]⟩
      (login ++ "__" ++ name) = some ⟨[]⟩ := by
    rw [← hsafe]
    exact findDir_append fs2 _ _ hdir2
  refine ⟨?_, ?_, hfind2, ?_⟩
  · have hkeys : ∀ x ∈ projects.filterMap extract_owner_repo, isStrKey x = true := by
      intro x hx
      obtain ⟨q, hq, hex⟩ := List.mem_filterMap.1 hx
      have hkt := hstr q hq
      rw [keyTyped, hex] at hkt
      exact hkt
    have huniq : ∀ x ∈ uniqueRepos projects, isStrKey x = true := by
      intro x hx
      apply hkeys
      apply dedupFS_subset x _ []
      rw [uniqueRepos, uniqueReposAux_eq] at hx
      simpa using hx
    obtain ⟨s, t, hst, hks⟩ := exists_first_split k _ hkmem
    have hsplit : ∀ x ∈ s, (x == k) = false := by
      intro x hx
      have hxs : x ∈ uniqueRepos projects := by
        rw [hst]
        exact List.mem_append_left _ hx
      rw [← Bool.not_eq_true]
      intro hbt
      have heq := (jvkey_beq_iff x k (huniq x hxs) (huniq k hkmem)).1 hbt
      rw [heq] at hx
      exact hks hx
    rw [hst] at hrun
    exact fetchReposLoop_mkdir_before endpoint per_page fuel k s t res fs [] out
      hsplit rfl hrun
  · exact fetchReposLoop_single_empty endpoint2 per_page2 fuel2
      (.str login, .str name) res2 fs2 evs2 (by exact hdir2) hemp2 hf2
  · have hstep := normalize_step_join p kvs okvs login name
      ⟨fs2.dirs ++ [(safe_dir_name login name, ⟨[]⟩)]⟩
      hp hname howner hlogin hn hl hchars
    rw [hstep.2, hfind2]
    rfl

/-- Witness for C10 -/
theorem commits_dir_created_first_witness :
    (∃ preT postT,
        outW.2.2 = preT ++ .mkdir (safe_dir_name (pyStr keyW2.1) (pyStr keyW2.2)) :: postT ∧
        countReqAll keyW2 preT = 0) ∧
    fetchReposLoop endpointEmptyW 100 1 [(.str "u", .str "r1")] [] ⟨[]⟩ []
      = some (.ok (dictSet [] ("u" ++ "/" ++ "r1") [],
          ⟨FS.dirs ⟨[]⟩ ++ [(safe_dir_name "u" "r1", ⟨[]⟩)]⟩,
          [] ++ [.mkdir (safe_dir_name "u" "r1"), .request (.str "u", .str "r1") 1])) ∧
    FS.findDir ⟨FS.dirs ⟨[]⟩ ++ [(safe_dir_name "u" "r1", ⟨[]⟩)]⟩ ("u" ++ "__" ++ "r1")
      = some ⟨[]⟩ ∧
    normalize_step ⟨FS.dirs ⟨[]⟩ ++ [(safe_dir_name "u" "r1", ⟨[]⟩)]⟩ recW
      = .ok (recW.set "commits" (.list [])) :=
  commits_dir_created_first projectsDup endpointEmptyW endpointEmptyW 100 100 1 1
    [] [] ⟨[]⟩ ⟨[]⟩ [] outW keyW2 recW
    [("name", .str "r1"), ("owner", .obj [("login", .str "u")])]
    [("login", .str "u")] "u" "r1"
    (by decide) rfl (by exact List.Mem.head _) rfl rfl (by decide)
    rfl rfl rfl rfl (by decide) (by decide) (by decide)


end RAG
